import Mathlib

/-!
Verification of the review-analytics engine of the `review_scraper` repository.

The JavaScript sources are shallowly embedded: JS strings are `List Char`,
JS numbers are `ℤ`/`ℕ`/`ℚ` (exact arithmetic; every numeric computation the
claims touch is exact in IEEE doubles at the relevant sizes), a JS `NaN`
produced by `parseInt` is `Option.none`, and the host `Date` parser
(`new Date(string)`) together with the clock (`new Date()`) are abstracted as
parameters `oracle : List Char → Option ℤ` (milliseconds since the epoch,
`none` = Invalid Date) and `now : ℤ`.  Instants are integer milliseconds;
the epoch sentinel `new Date(0)` is `0`.
-/

namespace RS

/-- JS string type: a JavaScript string as a list of characters. -/
abbrev JStr := List Char

/-- Model of `String.prototype.toLowerCase` (reviews are ASCII; only the
ASCII case fold matters for the embedded code). -/
def lower (s : JStr) : JStr := s.map Char.toLower

/-- Model of the regexp class `\s` / `String.prototype.trim` whitespace on
the characters appearing in the corpus (space, tab, CR, LF). -/
def isWs (c : Char) : Bool := c.isWhitespace

/-- Model of `String.prototype.trim`. -/
def trim (s : JStr) : JStr :=
  ((s.dropWhile isWs).reverse.dropWhile isWs).reverse

/-- Model of `String.prototype.includes sub`. -/
def jsIncludes (s sub : JStr) : Bool :=
  (List.range (s.length + 1)).any fun i => sub.isPrefixOf (s.drop i)

/-- Numeric value of a list of decimal digit characters, as accumulated by
`parseInt` radix 10. -/
def digitsVal (ds : JStr) : ℕ :=
  ds.foldl (fun a c => 10 * a + (c.toNat - 48)) 0

/-- Model of JavaScript `parseInt(s)` (radix 10): skip leading whitespace,
optional sign, then the longest prefix of decimal digits; `none` models the
`NaN` result when no digit is found.  (Hex prefixes are not modelled; no
call site feeds them.) -/
def parseIntJS (s : JStr) : Option ℤ :=
  let t := s.dropWhile isWs
  match t with
  | '-' :: rest =>
      let ds := rest.takeWhile Char.isDigit
      if ds.isEmpty then none else some (-(digitsVal ds : ℤ))
  | '+' :: rest =>
      let ds := rest.takeWhile Char.isDigit
      if ds.isEmpty then none else some (digitsVal ds : ℤ)
  | rest =>
      let ds := rest.takeWhile Char.isDigit
      if ds.isEmpty then none else some (digitsVal ds : ℤ)

/-- JavaScript `x || 0` applied to a `parseInt` result: `NaN` falls back to
`0` (and `0` itself is falsy, also giving `0`, the same value). -/
def jsOr0 (o : Option ℤ) : ℤ := o.getD 0

/-- The second `-`-separated segment of a string: `id.split('-')[1]`. -/
def splitDash1 (s : JStr) : JStr :=
  ((s.dropWhile fun c => c ≠ '-').drop 1).takeWhile fun c => c ≠ '-'

/-- JS subtraction where either operand may be `NaN`. -/
def jsSub : Option ℤ → Option ℤ → Option ℤ
  | some a, some b => some (a - b)
  | _, _ => none

/-- JS `x <= 0` where `x` may be `NaN` (`NaN` compares false). -/
def jsLe0 : Option ℤ → Bool
  | some v => v ≤ 0
  | none => false

/-- One raw scraped review record (all fields are strings in the corpus). -/
structure Review where
  reviewer_name : JStr
  date : JStr
  star_rating : JStr
  review_text : JStr
  useful_count : JStr
deriving DecidableEq, Repr

/-- Milliseconds in a calendar day. -/
def dayMs : ℤ := 86400000

/-- Calendar-day key of an instant: the model of
`date.toISOString().split('T')[0]` — two instants produce the same ISO date
prefix exactly when they have the same floor-division by 86 400 000 ms. -/
def dayKey (t : ℤ) : ℤ := t.fdiv dayMs

/-- Matches the regexp `/Updated\s+(.+)/i` at the head of `l`: the literal
`updated` case-insensitively, then at least one whitespace character, then
at least one further character. -/
def updatedAt (l : JStr) : Bool :=
  lower (l.take 7) = ('u' :: 'p' :: 'd' :: 'a' :: 't' :: 'e' :: 'd' :: []) &&
  (match l.drop 7 with
   | c :: _ :: _ => isWs c
   | _ => false)

/-- The capture group of `/Updated\s+(.+)/i` when it matches at the head of
`l`: everything after the greedy whitespace run, backing off one character
when the run reaches the end of the string (`.+` needs one character). -/
def updatedCaptureAt (l : JStr) : JStr :=
  let after := l.drop 7
  let rest := after.dropWhile isWs
  if rest.isEmpty then l.drop (l.length - 1) else rest

/-- Model of `dateString.match(/Updated\s+(.+)/i)`: the capture of the
leftmost match, or `none`. -/
def updatedCapture : JStr → Option JStr
  | [] => none
  | c :: rest =>
      if updatedAt (c :: rest) then some (updatedCaptureAt (c :: rest))
      else updatedCapture rest

/-- Matches `/(\d+)\s+days?\s+ago/i` at the head of `l`, returning the
numeric value of the digit capture.  The greedy `\d+`/`\s+` runs are
maximal (the following literal can never consume a digit or whitespace
character, so no backtracking into them is possible); the optional `s`
is tried greedily first. -/
def daysAgoAt (l : JStr) : Option ℕ :=
  let ds := l.takeWhile Char.isDigit
  if ds.isEmpty then none else
  let r1 := (l.drop ds.length)
  let ws1 := r1.takeWhile isWs
  if ws1.isEmpty then none else
  let r2 := r1.drop ws1.length
  if lower (r2.take 3) = ('d' :: 'a' :: 'y' :: []) then
    let r3 := r2.drop 3
    let agoTail : JStr → Bool := fun r =>
      let ws2 := r.takeWhile isWs
      !ws2.isEmpty && lower ((r.drop ws2.length).take 3) = ('a' :: 'g' :: 'o' :: [])
    match r3 with
    | c :: r4 =>
        if Char.toLower c = 's' && agoTail r4 then some (digitsVal ds)
        else if agoTail r3 then some (digitsVal ds) else none
    | [] => none
  else none

/-- Model of `dateString.match(/(\d+)\s+days?\s+ago/i)`: value of the digit
capture of the leftmost match, or `none`. -/
def daysAgoCapture : JStr → Option ℕ
  | [] => none
  | c :: rest =>
      match daysAgoAt (c :: rest) with
      | some n => some n
      | none => daysAgoCapture rest

/-- `parseDate` (identical helper in `Reviews.jsx`, `Dashboard.jsx` and
`CalendarView.jsx`): empty string → epoch sentinel `0`; an
`Updated <rest>` match replaces the string by the capture; an
`N day(s) ago` match yields `now` minus `N` days (`setDate` keeps the
time-of-day, so in milliseconds this is `now - N·86400000`; time zones are
not modelled); otherwise the host parse (`oracle`) is used when it yields a
valid instant, and the epoch sentinel `0` otherwise. -/
def parseDate (now : ℤ) (oracle : JStr → Option ℤ) (s : JStr) : ℤ :=
  if s.isEmpty then 0
  else
    let s1 := match updatedCapture s with
      | some rest => rest
      | none => s
    match daysAgoCapture s1 with
    | some n => now - (n : ℤ) * dayMs
    | none =>
        match oracle s1 with
        | some t => t
        | none => 0

/-- Matches `/Reply\s+from\s+Fiverr?[:\s]/i` at the head of `l`.  After the
literal `fiver`, the greedy optional `r` is taken when the following
character completes `[:\s]`; backtracking to the un-taken `r` can never
succeed because `r` itself is neither a colon nor whitespace. -/
def replyAt (l : JStr) : Bool :=
  lower (l.take 5) = ('r' :: 'e' :: 'p' :: 'l' :: 'y' :: []) &&
  (let r1 := l.drop 5
   let ws1 := r1.takeWhile isWs
   !ws1.isEmpty &&
   (let r2 := r1.drop ws1.length
    lower (r2.take 4) = ('f' :: 'r' :: 'o' :: 'm' :: []) &&
    (let r3 := r2.drop 4
     let ws2 := r3.takeWhile isWs
     !ws2.isEmpty &&
     (let r4 := r3.drop ws2.length
      lower (r4.take 5) = ('f' :: 'i' :: 'v' :: 'e' :: 'r' :: []) &&
      (match r4.drop 5 with
       | c :: rest =>
           if Char.toLower c = 'r' then
             match rest with
             | d :: _ => d = ':' || isWs d
             | [] => false
           else c = ':' || isWs c
       | [] => false)))))

/-- Model of `text.search(/Reply\s+from\s+Fiverr?[:\s]/i)`: index of the
leftmost match, `none` for `-1`. -/
def replySearchAux : JStr → ℕ → Option ℕ
  | [], _ => none
  | c :: rest, i =>
      if replyAt (c :: rest) then some i else replySearchAux rest (i + 1)

/-- Index of the operator-reply marker in a review text, if present. -/
def replySearch (s : JStr) : Option ℕ := replySearchAux s 0

/-- `extractMainText` (ReviewGrouping.jsx; `extractMainReview` in
Dashboard.jsx is the identical code): text before the reply marker,
trimmed; the whole text trimmed when no marker is present. -/
def extractMainText (s : JStr) : JStr :=
  if s.isEmpty then []
  else
    match replySearch s with
    | some i => trim (s.take i)
    | none => trim s

end RS

namespace RS

/-- Stable insertion sort with a boolean "may precede" test: the model of
`Array.prototype.sort(cmp)` (stable since ES2019) with `le a b` meaning
`cmp(a,b) <= 0`. -/
def orderedInsertB {α : Type} (le : α → α → Bool) (a : α) : List α → List α
  | [] => [a]
  | b :: l => if le a b then a :: b :: l else b :: orderedInsertB le a l

/-- Stable sort used to model every `.sort(...)` call site. -/
def insertionSortB {α : Type} (le : α → α → Bool) : List α → List α
  | [] => []
  | a :: l => orderedInsertB le a (insertionSortB le l)

end RS

namespace ReviewGrouping

open RS

/-- `levenshteinDistance` (ReviewGrouping.jsx): the source fills the full
dynamic-programming matrix with `matrix[i][j] = if eq then diag else
1 + min(up, left, diag)`; this is exactly the standard edit-distance
recurrence, embedded here in its recursive form. -/
def levenshteinDistance : JStr → JStr → ℕ
  | [], t => t.length
  | s, [] => s.length
  | a :: s, b :: t =>
      if a = b then levenshteinDistance s t
      else 1 + min (levenshteinDistance (a :: s) t)
            (min (levenshteinDistance s (b :: t)) (levenshteinDistance s t))
termination_by s t => s.length + t.length
decreasing_by all_goals simp_arith

/-- `calculateSimilarity` (ReviewGrouping.jsx): 0 for an empty input
(JS `!text`), else `(maxLen - distance) / maxLen * 100` over the
case-folded texts.  The `maxLen === 0` branch of the source is unreachable
(both texts are non-empty there) but embedded for fidelity. -/
def calculateSimilarity (text1 text2 : JStr) : ℚ :=
  if text1.isEmpty || text2.isEmpty then 0
  else
    let maxLen := max text1.length text2.length
    if maxLen = 0 then 100
    else ((maxLen : ℚ) - (levenshteinDistance (lower text1) (lower text2) : ℚ))
          / (maxLen : ℚ) * 100

/-- The topic keyword table of ReviewGrouping.jsx (five topics, in object
insertion order). -/
def topicKeywords : List (JStr × List JStr) :=
  [("scam".toList, ["scam".toList, "fraud".toList, "fake".toList, "hack".toList,
      "stolen".toList, "robbery".toList]),
   ("fees".toList, ["commission".toList, "fee".toList, "20%".toList, "charge".toList,
      "deduction".toList, "transaction fee".toList]),
   ("support".toList, ["support".toList, "customer service".toList, "help".toList,
      "response".toList, "contact".toList, "chatbot".toList]),
   ("payment".toList, ["payment".toList, "withdraw".toList, "funds".toList,
      "clearance".toList, "paypal".toList, "14 days".toList, "14-day".toList]),
   ("algorithm".toList, ["algorithm".toList, "ranking".toList, "impressions".toList,
      "visibility".toList, "search".toList, "success score".toList])]

/-- `extractTopics` (ReviewGrouping.jsx): every topic one of whose keywords
occurs (case-insensitively) in the text, in table order. -/
def extractTopics (text : JStr) : List JStr :=
  if text.isEmpty then []
  else
    let lowerText := lower text
    (topicKeywords.filter fun p => p.2.any fun kw => jsIncludes lowerText kw).map Prod.fst

/-- A similarity-mode group before display projection: seed index,
representative (the seed's main text) and the members as (index, review)
pairs in the order the source pushes them (seed first). -/
structure SimGroupI where
  seed : ℕ
  representative : JStr
  members : List (ℕ × Review)
deriving DecidableEq, Repr

/-- The inner `reviews.forEach((otherReview, otherIndex) => ...)` scan of
similarity mode: skip the seed index and already-claimed indices, add every
other review whose similarity to the seed text meets the threshold,
claiming it immediately. -/
def innerScan (θ : ℚ) (mt : JStr) (i : ℕ) :
    List (ℕ × Review) → List ℕ → List (ℕ × Review) × List ℕ
  | [], proc => ([], proc)
  | (j, r) :: rest, proc =>
      if j = i ∨ j ∈ proc then innerScan θ mt i rest proc
      else if θ ≤ calculateSimilarity mt (extractMainText r.review_text) then
        let p := innerScan θ mt i rest (j :: proc)
        ((j, r) :: p.1, p.2)
      else innerScan θ mt i rest proc

/-- The outer `reviews.forEach((review, index) => ...)` loop of similarity
mode: an unclaimed review seeds a group; the group is kept (and the seed
claimed) only when the inner scan claimed at least one other member. -/
def outerScan (θ : ℚ) (all : List (ℕ × Review)) :
    List (ℕ × Review) → List SimGroupI → List ℕ → List SimGroupI
  | [], groups, _ => groups
  | (i, r) :: rest, groups, proc =>
      if i ∈ proc then outerScan θ all rest groups proc
      else
        let mt := extractMainText r.review_text
        let p := innerScan θ mt i all proc
        if p.1.isEmpty then outerScan θ all rest groups p.2
        else outerScan θ all rest (groups ++ [⟨i, mt, (i, r) :: p.1⟩]) (i :: p.2)

/-- Comparator model for `groups.sort((a, b) => b.count - a.count)`; a
group's `count` field always equals its member-list length (it starts at 1
with the seed and is incremented exactly once per push). -/
def countLe (g1 g2 : SimGroupI) : Bool :=
  (g2.members.length : ℤ) - (g1.members.length : ℤ) ≤ 0

/-- The similarity-mode branch of `groupedReviews`, with member indices
kept for stating occurrence-level properties. -/
def similarityGroups (θ : ℚ) (reviews : List Review) : List SimGroupI :=
  insertionSortB countLe (outerScan θ reviews.enum reviews.enum [] [])

/-- A displayed group: id, member reviews, count and (similarity mode only)
the representative text.  The display label is omitted (presentation
only). -/
structure Group where
  id : JStr
  reviews : List Review
  count : ℕ
  representative : Option JStr
deriving DecidableEq, Repr

/-- Projection of an internal similarity group to the displayed record
(`id: group-<seed>`, `reviews`, `count`, `representative`). -/
def toGroup (g : SimGroupI) : Group :=
  ⟨"group-".toList ++ (Nat.repr g.seed).toList,
   g.members.map Prod.snd, g.members.length, some g.representative⟩

end ReviewGrouping

namespace ReviewGrouping

open RS

/-- Insertion-ordered JS object model: push `v` onto the entry of key `k`,
creating the entry at the end on first use. -/
def addAssoc {β : Type} : List (JStr × List β) → JStr → β → List (JStr × List β)
  | [], k, v => [(k, [v])]
  | (k2, vs) :: rest, k, v =>
      if k2 = k then (k2, vs ++ [v]) :: rest
      else (k2, vs) :: addAssoc rest k v

/-- Comparator model for `.sort((a, b) => b.count - a.count)` on displayed
groups. -/
def groupCountLe (g1 g2 : Group) : Bool := (g2.count : ℤ) - (g1.count : ℤ) ≤ 0

/-- The topic-mode accumulation loop: a review with no topics goes to the
`other` bucket, otherwise to every bucket of its topics. -/
def topicFold : List (ℕ × Review) → List (JStr × List (ℕ × Review)) →
    List (JStr × List (ℕ × Review))
  | [], m => m
  | (index, review) :: rest, m =>
      let mainText := extractMainText review.review_text
      let topics := extractTopics mainText
      if topics.isEmpty then topicFold rest (addAssoc m "other".toList (index, review))
      else topicFold rest (topics.foldl (fun acc t => addAssoc acc t (index, review)) m)

/-- The topic-mode branch of `groupedReviews`. -/
def topicGroups (reviews : List Review) : List Group :=
  insertionSortB groupCountLe
    ((topicFold reviews.enum []).map fun p => ⟨p.1, p.2.map Prod.snd, p.2.length, none⟩)

/-- The rating-mode accumulation loop (`review.star_rating || 'unknown'`). -/
def ratingFold : List Review → List (JStr × List Review) → List (JStr × List Review)
  | [], m => m
  | review :: rest, m =>
      let k := if review.star_rating.isEmpty then "unknown".toList else review.star_rating
      ratingFold rest (addAssoc m k review)

/-- Whether a JS object key is a canonical array index (such keys enumerate
first, in ascending numeric order, in `Object.values`). -/
def isIndexKey (k : JStr) : Bool :=
  !k.isEmpty && k.all Char.isDigit && (k = ['0'] || decide (k.head? ≠ some '0'))

/-- Ascending numeric order on array-index keys for `Object.values`. -/
def idxKeyLe {β : Type} (p q : JStr × β) : Bool := digitsVal p.1 ≤ digitsVal q.1

/-- `Object.values` enumeration order of a modelled JS object: array-index
keys ascending, then the remaining keys in insertion order. -/
def objValuesOrder {β : Type} (m : List (JStr × β)) : List (JStr × β) :=
  insertionSortB idxKeyLe (m.filter fun p => isIndexKey p.1) ++
    m.filter fun p => !isIndexKey p.1

/-- Comparator model for the rating-mode
`.sort((a, b) => parseInt(b.id.split('-')[1]) - parseInt(a.id.split('-')[1]))`. -/
def ratingIdLe (g1 g2 : Group) : Bool :=
  jsLe0 (jsSub (parseIntJS (splitDash1 g2.id)) (parseIntJS (splitDash1 g1.id)))

/-- The rating-mode branch of `groupedReviews`. -/
def ratingGroups (reviews : List Review) : List Group :=
  insertionSortB ratingIdLe
    ((objValuesOrder (ratingFold reviews [])).map fun p =>
      ⟨"rating-".toList ++ p.1, p.2, p.2.length, none⟩)

/-- `groupedReviews` (ReviewGrouping.jsx): the clustering engine.  Empty
input short-circuits to `[]`; otherwise the branch for the selected mode
runs; an unknown mode yields `[]`. -/
def groupedReviews (groupingMode : JStr) (similarityThreshold : ℚ)
    (reviews : List Review) : List Group :=
  if reviews.isEmpty then []
  else if groupingMode = "topic".toList then topicGroups reviews
  else if groupingMode = "similarity".toList then
    (similarityGroups similarityThreshold reviews).map toGroup
  else if groupingMode = "rating".toList then ratingGroups reviews
  else []

end ReviewGrouping

namespace CalendarView

open RS

/-- Per-day analytics record produced by `reviewsByDate`
(CalendarView.jsx): member reviews, count, average rating, crisis flag and
low-rating count. -/
structure DayData where
  reviews : List Review
  count : ℕ
  avgRating : ℚ
  isCrisis : Bool
  lowRatingCount : ℕ
deriving DecidableEq, Repr

/-- First pass of `reviewsByDate`: the three parallel key-indexed objects
(`grouped`, `dateCounts`, `dateRatings`) share their keys and are modelled
as one insertion-ordered association list `day key ↦ (reviews, count,
ratings)`.  The pushed rating is `parseInt(star_rating) || 0`. -/
def groupPass (now : ℤ) (oracle : JStr → Option ℤ) :
    List Review → List (ℤ × (List Review × ℕ × List ℤ)) →
      List (ℤ × (List Review × ℕ × List ℤ))
  | [], m => m
  | review :: rest, m =>
      let dk := dayKey (parseDate now oracle review.date)
      groupPass now oracle rest (addDay m dk review (jsOr0 (parseIntJS review.star_rating)))
where
  /-- Push one review onto its day entry, creating the entry at the end on
  first use (JS object insertion order). -/
  addDay : List (ℤ × (List Review × ℕ × List ℤ)) → ℤ → Review → ℤ →
      List (ℤ × (List Review × ℕ × List ℤ))
  | [], k, r, rat => [(k, ([r], 1, [rat]))]
  | (k2, (rs, c, rats)) :: rest, k, r, rat =>
      if k2 = k then (k2, (rs ++ [r], c + 1, rats ++ [rat])) :: rest
      else (k2, (rs, c, rats)) :: addDay rest k r rat

/-- Second pass of `reviewsByDate`: average rating, low-rating count and
the crisis flag `lowRatingCount / ratings.length > 0.5 && ratings.length
>= 3` per day. -/
def processDay (e : List Review × ℕ × List ℤ) : DayData :=
  let ratings := e.2.2
  let avgRating := (ratings.sum : ℚ) / (ratings.length : ℚ)
  let lowRatingCount := (ratings.filter fun r => r ≤ 2).length
  let isCrisis :=
    decide ((1 : ℚ) / 2 < (lowRatingCount : ℚ) / (ratings.length : ℚ)) &&
    decide (3 ≤ ratings.length)
  ⟨e.1, e.2.1, avgRating, isCrisis, lowRatingCount⟩

/-- `reviewsByDate` (CalendarView.jsx): bucket every review by the calendar
day of its normalized date, then derive the per-day analytics.  The
source's `if (isNaN(date.getTime())) return` guard is unreachable —
`parseDate` always returns a valid instant (the epoch sentinel on
failure) — so every review is bucketed. -/
def reviewsByDate (now : ℤ) (oracle : JStr → Option ℤ) (reviews : List Review) :
    List (ℤ × DayData) :=
  (groupPass now oracle reviews []).map fun p => (p.1, processDay p.2)

end CalendarView

namespace Dashboard

open RS

/-- `extractMainReview` (Dashboard.jsx) is byte-for-byte the
`extractMainText` helper of ReviewGrouping.jsx. -/
def extractMainReview (s : JStr) : JStr := extractMainText s

/-- True when the text matches `/\$\d+/`: a dollar sign immediately
followed by a digit. -/
def hasAmountIn : JStr → Bool
  | [] => false
  | '$' :: rest =>
      (match rest with
       | d :: _ => d.isDigit
       | [] => false) || hasAmountIn rest
  | _ :: rest => hasAmountIn rest

/-- The feedback-intent alternatives of
`/suggest|recommend|improve|better|should|could/i`. -/
def feedbackWords : List JStr :=
  ["suggest".toList, "recommend".toList, "improve".toList, "better".toList,
   "should".toList, "could".toList]

/-- `calculateQualityScore` (Dashboard.jsx).  All summands act on the main
text; the engagement term is `Math.min(parseInt(useful_count) * 2, 20)`
with no `NaN` fallback, so an unparseable `useful_count` propagates `NaN`
(modelled as `none`) through `+=` and both `Math.min` calls.  The in-code
comments label the summands "(0-30 points)", "(0-30 points)",
"(0-20 points)" and "(0-20 points)". -/
def calculateQualityScore (review : Review) : Option ℤ :=
  let text := extractMainReview review.review_text
  let lengthScore : ℤ :=
    if 500 < text.length then 30
    else if 200 < text.length then 20
    else if 100 < text.length then 10
    else 0
  let hasAmount := hasAmountIn text
  let hasNumbers := text.any Char.isDigit
  let hasSpecificDetails := 3 < text.count '.' + 1
  let hasFeedback := feedbackWords.any fun w => jsIncludes (lower text) w
  let base := lengthScore + (if hasAmount then 10 else 0) +
    (if hasNumbers then 10 else 0) + (if hasSpecificDetails then 10 else 0) +
    (if hasFeedback then 20 else 0)
  match parseIntJS review.useful_count with
  | none => none
  | some u => some (min (base + min (u * 2) 20) 100)

/-- One entry of `timeSeriesData` as read by the volatility computation:
the per-rating counts `item['1']..item['5']` of a daily bucket.  (The other
fields of the bucket are not consumed by `volatilityData`.) -/
structure TimeBucket where
  c1 : ℕ
  c2 : ℕ
  c3 : ℕ
  c4 : ℕ
  c5 : ℕ
deriving DecidableEq, Repr

/-- Field access `w[i]` for `i = 1..5`. -/
def TimeBucket.count (w : TimeBucket) : ℕ → ℕ
  | 1 => w.c1
  | 2 => w.c2
  | 3 => w.c3
  | 4 => w.c4
  | 5 => w.c5
  | _ => 0

/-- The window expansion `for (i = 1..5) for (j < w[i]) result.push(i)`. -/
def expandBucket (w : TimeBucket) : List ℕ :=
  (List.range' 1 5).flatMap fun i => List.replicate (w.count i) i

/-- `arr.slice(a, b)`. -/
def jsSlice {α : Type} (l : List α) (a b : ℕ) : List α := (l.take b).drop a

/-- The mean/deviation-form population variance computed by the source:
`mean = sum/n`, `variance = Σ (r - mean)² / n` (exact rational
arithmetic over the JS numbers of the expanded ratings array). -/
def codeVariance (ratings : List ℚ) : ℚ :=
  let mean := ratings.sum / (ratings.length : ℚ)
  ((ratings.map fun r => (r - mean) ^ 2).sum) / (ratings.length : ℚ)

/-- `volatilityData` (Dashboard.jsx): map each index of the chronological
bucket list to `null` below index 7 and otherwise to the bucket paired
with `Math.sqrt` of the window variance (window = `slice(max(0, i-7),
i+1)`, ratings re-expanded from the per-rating counts; an empty expansion
yields volatility `0`), then drop the `null`s. -/
noncomputable def volatilityData (arr : List TimeBucket) : List (TimeBucket × ℝ) :=
  ((List.range arr.length).map fun index =>
    if index < 7 then none
    else
      let window := jsSlice arr (max 0 (index - 7)) (index + 1)
      let ratings := (window.flatMap expandBucket).map fun r => (r : ℚ)
      let item := arr.getD index ⟨0, 0, 0, 0, 0⟩
      if ratings.isEmpty then some (item, (0 : ℝ))
      else some (item, Real.sqrt (codeVariance ratings))).reduceOption

end Dashboard

namespace Reviews

open RS

/-- Seller-indicative keyword list of `detectUserType` (Reviews.jsx; the
Dashboard.jsx copy is identical). -/
def sellerKeywords : List JStr :=
  ["seller".toList, "freelancer".toList, "gig".toList, "delivery".toList,
   "order".toList, "client".toList, "buyer".toList, "commission".toList,
   "fees".toList, "withdraw".toList, "payment".toList, "funds".toList,
   "clearance".toList, "impressions".toList, "ranking".toList,
   "algorithm".toList, "success score".toList, "top rated".toList]

/-- Buyer-indicative keyword list of `detectUserType`. -/
def buyerKeywords : List JStr :=
  ["hired".toList, "purchased".toList, "bought".toList, "paid".toList,
   "service".toList, "project".toList, "developer".toList, "designer".toList,
   "work".toList, "delivered".toList, "scammed".toList, "fraud".toList]

/-- `detectUserType` (Reviews.jsx): majority of case-insensitive keyword
hits; exact tie (including the empty text) → `unknown`. -/
def detectUserType (text : JStr) : JStr :=
  if text.isEmpty then "unknown".toList
  else
    let lowerText := lower text
    let sellerCount := (sellerKeywords.filter fun kw => jsIncludes lowerText kw).length
    let buyerCount := (buyerKeywords.filter fun kw => jsIncludes lowerText kw).length
    if buyerCount < sellerCount then "seller".toList
    else if sellerCount < buyerCount then "buyer".toList
    else "unknown".toList

/-- The `dateRange` filter field; `endd` models the JS property `end`
(a Lean keyword).  Empty strings are the inactive (falsy) state. -/
structure DateRange where
  start : JStr
  endd : JStr
deriving DecidableEq, Repr

/-- The advanced filter spec produced by AdvancedSearch.jsx. -/
structure AdvancedFilters where
  searchText : JStr
  filterRating : JStr
  filterUserType : JStr
  dateRange : Option DateRange
  searchInReplies : Bool
  minUsefulCount : Option ℤ
  hasReply : JStr
deriving DecidableEq, Repr

/-- The free-text predicate of the composed filter: the search term against
the (lower-cased) review text — main text only unless `searchInReplies` —
or the reviewer name. -/
def searchPred (f : AdvancedFilters) (review : Review) : Bool :=
  let searchTerm := lower f.searchText
  let reviewText := lower review.review_text
  let reviewerName := lower review.reviewer_name
  if f.searchInReplies then
    jsIncludes reviewText searchTerm || jsIncludes reviewerName searchTerm
  else
    let mainText :=
      match replySearch reviewText with
      | some i => reviewText.take i
      | none => reviewText
    jsIncludes mainText searchTerm || jsIncludes reviewerName searchTerm

/-- The date-range predicate: start boundary inclusive from the parsed
start instant, end boundary through `setHours(23,59,59,999)` of the end
day; an invalid boundary (`NaN` comparisons) excludes nothing. -/
def dateRangePred (now : ℤ) (oracle : JStr → Option ℤ) (dr : DateRange)
    (review : Review) : Bool :=
  let reviewDate := parseDate now oracle review.date
  (if !dr.start.isEmpty then
    match oracle dr.start with
    | some t => decide (¬ reviewDate < t)
    | none => true
  else true) &&
  (if !dr.endd.isEmpty then
    match oracle dr.endd with
    | some t => decide (¬ dayKey t * dayMs + (dayMs - 1) < reviewDate)
    | none => true
  else true)

/-- The composed filter of `filteredAndSortedReviews` when an advanced
filter spec is active: the six optional predicates applied in source
order (all AND-combined). -/
def advancedFiltered (now : ℤ) (oracle : JStr → Option ℤ) (f : AdvancedFilters)
    (reviews : List Review) : List Review :=
  let f1 := if !f.searchText.isEmpty then reviews.filter (searchPred f) else reviews
  let f2 := if !f.filterRating.isEmpty && f.filterRating ≠ "all".toList then
      f1.filter fun r => r.star_rating = f.filterRating
    else f1
  let f3 := if !f.filterUserType.isEmpty && f.filterUserType ≠ "all".toList then
      f2.filter fun r => detectUserType r.review_text = f.filterUserType
    else f2
  let f4 := match f.dateRange with
    | some dr =>
        if !dr.start.isEmpty || !dr.endd.isEmpty then
          f3.filter (dateRangePred now oracle dr)
        else f3
    | none => f3
  let f5 := match f.minUsefulCount with
    | some m => f4.filter fun r => m ≤ jsOr0 (parseIntJS r.useful_count)
    | none => f4
  if !f.hasReply.isEmpty && f.hasReply ≠ "all".toList then
    if f.hasReply = "yes".toList then f5.filter fun r => (replySearch r.review_text).isSome
    else f5.filter fun r => (replySearch r.review_text).isNone
  else f5

/-- The legacy filter path (`filterWord` / `filterRating`) used when no
advanced filter spec is set. -/
def legacyFiltered (filterWord : Option JStr) (filterRating : JStr)
    (reviews : List Review) : List Review :=
  let l1 := match filterWord with
    | some w =>
        if w.isEmpty then reviews
        else reviews.filter fun r => jsIncludes (lower r.review_text) (lower w)
    | none => reviews
  if filterRating ≠ "all".toList then l1.filter fun r => r.star_rating = filterRating
  else l1

/-- The component state consumed by `filteredAndSortedReviews`. -/
structure RState where
  reviews : List Review
  sortBy : JStr
  filterWord : Option JStr
  filterRating : JStr
  advancedFilters : Option AdvancedFilters
  groupedReviews : Option (List Review)
  selectedDateReviews : Option (List Review)
  collectionReviews : Option (List Review)

/-- The composed-filter output (advanced spec when present, else the
legacy path), before sorting. -/
def composedFiltered (now : ℤ) (oracle : JStr → Option ℤ) (st : RState) :
    List Review :=
  match st.advancedFilters with
  | some f => advancedFiltered now oracle f st.reviews
  | none => legacyFiltered st.filterWord st.filterRating st.reviews

/-- The JS comparator of the final `.sort`, per active sort key (`NaN`
results arise from unparseable ratings). -/
def sortCmp (now : ℤ) (oracle : JStr → Option ℤ) (sortBy : JStr) (a b : Review) :
    Option ℤ :=
  if sortBy = "rating-desc".toList then
    jsSub (parseIntJS b.star_rating) (parseIntJS a.star_rating)
  else if sortBy = "rating-asc".toList then
    jsSub (parseIntJS a.star_rating) (parseIntJS b.star_rating)
  else if sortBy = "date-desc".toList then
    some (parseDate now oracle b.date - parseDate now oracle a.date)
  else if sortBy = "date-asc".toList then
    some (parseDate now oracle a.date - parseDate now oracle b.date)
  else some 0

/-- May-precede relation induced by the comparator (`cmp(a,b) <= 0`). -/
def sortLe (now : ℤ) (oracle : JStr → Option ℤ) (sortBy : JStr) (a b : Review) :
    Bool :=
  jsLe0 (sortCmp now oracle sortBy a b)

/-- An override list is active exactly when it is present and non-empty
(`x && x.length > 0`). -/
def activeList : Option (List Review) → Option (List Review)
  | some l => if l.isEmpty then none else some l
  | none => none

/-- `filteredAndSortedReviews` (Reviews.jsx): an active collection
selection, else an active calendar-day selection, else an active
cluster-group selection is returned as stored; otherwise the composed
filter output is sorted by the active sort key. -/
def filteredAndSortedReviews (now : ℤ) (oracle : JStr → Option ℤ) (st : RState) :
    List Review :=
  match activeList st.collectionReviews with
  | some l => l
  | none =>
    match activeList st.selectedDateReviews with
    | some l => l
    | none =>
      match activeList st.groupedReviews with
      | some l => l
      | none =>
          insertionSortB (sortLe now oracle st.sortBy) (composedFiltered now oracle st)

end Reviews

namespace ReviewGrouping

open RS

/-- Modelled from the spec (refinement reference for similarity-mode
clustering): the scan of a freshly opened group inspects only the LATER
not-yet-claimed reviews, adding every one whose normalized similarity to
the seed text meets or exceeds the threshold and claiming it. -/
def specInnerScan (θ : ℚ) (mt : JStr) (i : ℕ) :
    List (ℕ × Review) → List ℕ → List (ℕ × Review) × List ℕ
  | [], proc => ([], proc)
  | (j, r) :: rest, proc =>
      if j ≤ i ∨ j ∈ proc then specInnerScan θ mt i rest proc
      else if θ ≤ calculateSimilarity mt (extractMainText r.review_text) then
        let p := specInnerScan θ mt i rest (j :: proc)
        ((j, r) :: p.1, p.2)
      else specInnerScan θ mt i rest proc

/-- Modelled from the spec: greedy similarity clustering in input order —
each not-yet-claimed review opens a group, later unclaimed reviews within
the threshold join it, the group is kept only when it gained a member
beyond the seed, and claimed indices never seed or join another group. -/
def specOuterScan (θ : ℚ) (all : List (ℕ × Review)) :
    List (ℕ × Review) → List SimGroupI → List ℕ → List SimGroupI
  | [], groups, _ => groups
  | (i, r) :: rest, groups, proc =>
      if i ∈ proc then specOuterScan θ all rest groups proc
      else
        let mt := extractMainText r.review_text
        let p := specInnerScan θ mt i all proc
        if p.1.isEmpty then specOuterScan θ all rest groups p.2
        else specOuterScan θ all rest (groups ++ [⟨i, mt, (i, r) :: p.1⟩]) (i :: p.2)

/-- Modelled from the spec: the similarity-mode group list specified by the
greedy later-scan algorithm (ordered like the source output, largest groups
first). -/
def specSimilarityGroups (θ : ℚ) (reviews : List Review) : List SimGroupI :=
  insertionSortB countLe (specOuterScan θ reviews.enum reviews.enum [] [])

end ReviewGrouping

namespace Dashboard

open RS

/-- Modelled from the spec: the population standard deviation of a list of
rating values, in moment form `sqrt(E[x²] − (E[x])²)`. -/
noncomputable def popStdDev (l : List ℚ) : ℝ :=
  Real.sqrt ((((l.map fun x => x ^ 2).sum) / (l.length : ℚ) -
    (l.sum / (l.length : ℚ)) ^ 2 : ℚ))

/-- Modelled from the spec: the window of the bucket at index `i` plus its
7 predecessors, `arr[i-7] .. arr[i]`. -/
def specWindow (arr : List TimeBucket) (i : ℕ) : List TimeBucket :=
  (List.range' (i - 7) 8).filterMap fun j => arr[j]?

end Dashboard

namespace RS

/-- A host date parser that recognizes nothing (every claim about the
engine is proved for an arbitrary oracle; concrete witnesses use this
one). -/
def orcNone : JStr → Option ℤ := fun _ => none

/-- Convenience constructor for concrete review fixtures. -/
def mkRev (name date rate text useful : String) : Review :=
  ⟨name.toList, date.toList, rate.toList, text.toList, useful.toList⟩

/-- Fixture: a short review with no topic keywords. -/
def rHello : Review := mkRev "Al" "" "5" "hello" "0"

/-- Fixtures: three same-day reviews rated 1, 1, 5. -/
def r1a : Review := mkRev "A" "" "1" "bad" "0"

/-- Second 1-star same-day fixture. -/
def r1b : Review := mkRev "B" "" "1" "awful" "0"

/-- 5-star same-day fixture. -/
def r5a : Review := mkRev "C" "" "5" "nice" "0"

/-- 3-star same-day fixture (first). -/
def r3a : Review := mkRev "D" "" "3" "meh" "0"

/-- 3-star same-day fixture (second). -/
def r3b : Review := mkRev "E" "" "3" "okay" "0"

/-- 3-star same-day fixture (third). -/
def r3c : Review := mkRev "F" "" "3" "fine" "0"

/-- Fixture: a review whose date string no rule recognizes. -/
def rBad : Review := mkRev "G" "garbage" "4" "text" "0"

/-- Similarity fixtures: two identical `aaaa` texts. -/
def rA1 : Review := mkRev "H" "" "5" "aaaa" "0"

/-- Second `aaaa` fixture. -/
def rA2 : Review := mkRev "I" "" "4" "aaaa" "0"

/-- First `bbbb` fixture. -/
def rB1 : Review := mkRev "J" "" "3" "bbbb" "0"

/-- Second `bbbb` fixture. -/
def rB2 : Review := mkRev "K" "" "2" "bbbb" "0"

end RS

namespace RS

/-- Fixture: eight identical daily time buckets. -/
def arrB8 : List Dashboard.TimeBucket := List.replicate 8 ⟨0, 1, 0, 0, 2⟩

/-- Fixture: a state whose collection override holds two reviews in
ascending-rating order while the rating-descending sort key is active. -/
def stC1 : Reviews.RState :=
  ⟨[], "rating-desc".toList, none, "all".toList, none, none, none,
    some [rB2, rA1]⟩

/-- Fixture: an override-free state with the date-descending sort key. -/
def stSort : Reviews.RState :=
  ⟨[rA1, rB1], "date-desc".toList, none, "all".toList, none, none, none, none⟩

/-- Fixture: an empty collection override together with a populated
calendar-day selection. -/
def stC10 : Reviews.RState :=
  ⟨[], "date-desc".toList, none, "all".toList, none, none, some [rA1], some []⟩

end RS

namespace RS

theorem orderedInsertB_perm {α : Type} (le : α → α → Bool) (a : α) (l : List α) :
    List.Perm (orderedInsertB le a l) (a :: l) := by
  induction l with
  | nil => simp [orderedInsertB]
  | cons b l ih =>
      simp only [orderedInsertB]
      by_cases h : le a b
      · simp [h]
      · simp only [h]
        exact ((ih.cons b).trans (List.Perm.swap a b l))

theorem insertionSortB_perm {α : Type} (le : α → α → Bool) (l : List α) :
    List.Perm (insertionSortB le l) l := by
  induction l with
  | nil => simp [insertionSortB]
  | cons a l ih =>
      exact (orderedInsertB_perm le a (insertionSortB le l)).trans (ih.cons a)

theorem mem_orderedInsertB {α : Type} (le : α → α → Bool) (a x : α) (l : List α) :
    x ∈ orderedInsertB le a l ↔ x = a ∨ x ∈ l := by
  have := (orderedInsertB_perm le a l).mem_iff (a := x)
  simpa using this

theorem mem_insertionSortB {α : Type} (le : α → α → Bool) (x : α) (l : List α) :
    x ∈ insertionSortB le l ↔ x ∈ l :=
  (insertionSortB_perm le l).mem_iff

theorem pairwise_orderedInsertB {α : Type} (le : α → α → Bool) (a : α) (l : List α)
    (htot : ∀ b ∈ l, le a b = true ∨ le b a = true)
    (htrans : ∀ x ∈ a :: l, ∀ y ∈ a :: l, ∀ z ∈ a :: l,
      le x y = true → le y z = true → le x z = true)
    (hl : l.Pairwise (fun x y => le x y = true)) :
    (orderedInsertB le a l).Pairwise (fun x y => le x y = true) := by
  induction l with
  | nil => simp [orderedInsertB]
  | cons b l ih =>
      rcases List.pairwise_cons.1 hl with ⟨hb, hl2⟩
      simp only [orderedInsertB]
      by_cases h : le a b = true
      · rw [if_pos h]
        refine List.Pairwise.cons ?_ hl
        intro z hz
        rcases List.mem_cons.1 hz with rfl | hz
        · exact h
        · exact htrans a (by simp) b (by simp) z (by simp [hz]) h (hb z hz)
      · rw [if_neg h]
        have hba : le b a = true := (htot b (by simp)).resolve_left h
        refine List.Pairwise.cons ?_ ?_
        · intro z hz
          rcases (mem_orderedInsertB le a z l).1 hz with rfl | hz
          · exact hba
          · exact hb z hz
        · refine ih (fun c hc => htot c (by simp [hc])) ?_ hl2
          intro x hx y hy z hz
          have sub : ∀ w, w ∈ a :: l → w ∈ a :: b :: l := by
            intro w hw
            rcases List.mem_cons.1 hw with rfl | hw
            · simp
            · simp [hw]
          exact htrans x (sub x hx) y (sub y hy) z (sub z hz)

theorem pairwise_insertionSortB {α : Type} (le : α → α → Bool) (l : List α)
    (htot : ∀ a ∈ l, ∀ b ∈ l, le a b = true ∨ le b a = true)
    (htrans : ∀ x ∈ l, ∀ y ∈ l, ∀ z ∈ l, le x y = true → le y z = true → le x z = true) :
    (insertionSortB le l).Pairwise (fun x y => le x y = true) := by
  induction l with
  | nil => simp [insertionSortB]
  | cons a l ih =>
      have hmem : ∀ w, w ∈ insertionSortB le l → w ∈ l :=
        fun w hw => (mem_insertionSortB le w l).1 hw
      refine pairwise_orderedInsertB le a (insertionSortB le l) ?_ ?_ ?_
      · intro b hbmem
        exact htot a (by simp) b (by simp [hmem b hbmem])
      · intro x hx y hy z hz
        have sub : ∀ w, w ∈ a :: insertionSortB le l → w ∈ a :: l := by
          intro w hw
          rcases List.mem_cons.1 hw with rfl | hw
          · simp
          · simp [hmem w hw]
        exact htrans x (sub x hx) y (sub y hy) z (sub z hz)
      · exact ih (fun x hx y hy => htot x (by simp [hx]) y (by simp [hy]))
          (fun x hx y hy z hz => htrans x (by simp [hx]) y (by simp [hy]) z (by simp [hz]))

end RS


open RS

namespace ReviewGrouping

theorem addAssoc_fresh {β : Type} (m : List (JStr × List β)) (k : JStr) (v : β)
    (h : ∀ p ∈ m, p.1 ≠ k) : addAssoc m k v = m ++ [(k, [v])] := by
  induction m with
  | nil => simp [addAssoc]
  | cons p rest ih =>
      obtain ⟨k2, vs⟩ := p
      simp only [addAssoc]
      rw [if_neg (h ⟨k2, vs⟩ (by simp))]
      simp only [List.cons_append, List.cons.injEq, true_and]
      exact ih fun q hq => h q (by simp [hq])

theorem foldl_addAssoc_fresh {β : Type} (x : β) (ts : List JStr)
    (acc : List (JStr × List β)) (h1 : ∀ t ∈ ts, ∀ p ∈ acc, p.1 ≠ t)
    (h2 : ts.Nodup) :
    ts.foldl (fun acc t => addAssoc acc t x) acc = acc ++ ts.map fun t => (t, [x]) := by
  induction ts generalizing acc with
  | nil => simp
  | cons t ts ih =>
      simp only [List.foldl_cons, List.map_cons]
      rw [addAssoc_fresh acc t x (fun p hp => h1 t (by simp) p hp)]
      rw [ih (acc ++ [(t, [x])])]
      · simp
      · intro u hu p hp
        rcases List.mem_append.1 hp with hp | hp
        · exact h1 u (by simp [hu]) p hp
        · simp only [List.mem_singleton] at hp
          subst hp
          intro hcon
          rcases List.nodup_cons.1 h2 with ⟨hnot, _⟩
          exact hnot (by simp only [] at hcon; rw [show t = u from hcon]; exact hu)
      · exact (List.nodup_cons.1 h2).2

theorem extractTopics_nodup (s : JStr) : (extractTopics s).Nodup := by
  unfold extractTopics
  by_cases h : s.isEmpty
  · simp [h]
  · simp only [h, if_false]
    have : (topicKeywords.map Prod.fst).Nodup := by decide
    exact this.sublist ((List.filter_sublist _).map Prod.fst)

end ReviewGrouping

namespace ReviewGrouping

theorem groupedReviews_nil (mode : JStr) (θ : ℚ) : groupedReviews mode θ [] = [] := by
  simp [groupedReviews]

theorem groupedReviews_sim_single (θ : ℚ) (r : Review) :
    groupedReviews "similarity".toList θ [r] = [] := by
  unfold groupedReviews
  rw [if_neg (by simp), if_neg (by decide), if_pos rfl]
  unfold similarityGroups
  have henum : ([r] : List Review).enum = [(0, r)] := rfl
  have h0 : outerScan θ [(0, r)] [(0, r)] [] [] = [] := by
    simp [outerScan, innerScan]
  rw [henum, h0]
  rfl

theorem groupedReviews_topic_single (θ : ℚ) (r : Review) :
    groupedReviews "topic".toList θ [r] ≠ [] ∧
      ∀ g ∈ groupedReviews "topic".toList θ [r], g.reviews = [r] := by
  have hmode : groupedReviews "topic".toList θ [r] = topicGroups [r] := by
    unfold groupedReviews
    rw [if_neg (by simp), if_pos rfl]
  have henum : ([r] : List Review).enum = [(0, r)] := rfl
  have hfold : topicFold [(0, r)] [] =
      (if (extractTopics (extractMainText r.review_text)).isEmpty
        then ["other".toList]
        else extractTopics (extractMainText r.review_text)).map fun t => (t, [((0 : ℕ), r)]) := by
    unfold topicFold
    by_cases h : (extractTopics (extractMainText r.review_text)).isEmpty
    · rw [if_pos h, if_pos h]
      simp [topicFold, addAssoc]
    · rw [if_neg h, if_neg h]
      rw [foldl_addAssoc_fresh (0, r) _ [] (by simp) (extractTopics_nodup _)]
      simp [topicFold]
  have hlen : topicGroups [r] ≠ [] := by
    unfold topicGroups
    intro hcon
    have hthis := (insertionSortB_perm groupCountLe
      ((topicFold ([r] : List Review).enum []).map fun p =>
        (⟨p.1, p.2.map Prod.snd, p.2.length, none⟩ : Group))).length_eq
    rw [hcon] at hthis
    simp only [List.length_nil] at hthis
    rw [henum, hfold] at hthis
    replace this := hthis
    by_cases h : (extractTopics (extractMainText r.review_text)).isEmpty
    · simp [h] at this
    · rw [if_neg h] at this
      simp only [List.length_map] at this
      exact h (by simpa [List.isEmpty_iff_length_eq_zero] using this.symm)
  refine ⟨by rw [hmode]; exact hlen, ?_⟩
  intro g hg
  rw [hmode] at hg
  unfold topicGroups at hg
  rw [mem_insertionSortB] at hg
  rw [henum, hfold] at hg
  rcases List.mem_map.1 hg with ⟨p, hp, rfl⟩
  rcases List.mem_map.1 hp with ⟨t, _, rfl⟩
  rfl

theorem groupedReviews_rating_single (θ : ℚ) (r : Review) :
    ∃ g, groupedReviews "rating".toList θ [r] = [g] ∧ g.reviews = [r] := by
  refine ⟨⟨"rating-".toList ++
      (if r.star_rating.isEmpty then "unknown".toList else r.star_rating), [r], 1, none⟩,
    ?_, rfl⟩
  unfold groupedReviews
  rw [if_neg (by simp), if_neg (by decide), if_neg (by decide), if_pos rfl]
  unfold ratingGroups
  have h1 : ratingFold [r] [] =
      [((if r.star_rating.isEmpty then "unknown".toList else r.star_rating), [r])] := by
    simp [ratingFold, addAssoc]
  rw [h1]
  set k : JStr := if r.star_rating.isEmpty then "unknown".toList else r.star_rating with hk
  have h2 : objValuesOrder [(k, [r])] = [(k, [r])] := by
    unfold objValuesOrder
    by_cases h : isIndexKey k
    · simp [List.filter_cons, h, insertionSortB, orderedInsertB]
    · simp [List.filter_cons, h, insertionSortB]
  rw [h2]
  simp [insertionSortB, orderedInsertB]

end ReviewGrouping

open ReviewGrouping

/-- C5, claim as stated is refuted: a single-element input in topic mode
yields a non-empty group list (the review's topic buckets, or the `other`
bucket), not the empty list. -/
theorem c5_counterexample : groupedReviews "topic".toList 70 [rHello] ≠ [] := by
  decide

/-- C5, amended: for every mode an empty input yields the empty group
list; a single-element input yields the empty list in similarity mode, at
least one group (each containing exactly that review) in topic mode, and
exactly one group containing that review in rating mode — never an
error. -/
theorem c5_clustering_small_inputs :
    (∀ (mode : JStr) (θ : ℚ), groupedReviews mode θ [] = []) ∧
    (∀ (θ : ℚ) (r : Review), groupedReviews "similarity".toList θ [r] = []) ∧
    (∀ (θ : ℚ) (r : Review), groupedReviews "topic".toList θ [r] ≠ [] ∧
      ∀ g ∈ groupedReviews "topic".toList θ [r], g.reviews = [r]) ∧
    (∀ (θ : ℚ) (r : Review), ∃ g, groupedReviews "rating".toList θ [r] = [g] ∧
      g.reviews = [r]) :=
  ⟨groupedReviews_nil, groupedReviews_sim_single, groupedReviews_topic_single,
    groupedReviews_rating_single⟩

/-- C5 witness: the single topic-mode group of a concrete one-review input
contains exactly that review. -/
theorem c5_witness :
    ((⟨"other".toList, [rHello], 1, none⟩ : Group) ∈
      groupedReviews "topic".toList 70 [rHello]) ∧
    (⟨"other".toList, [rHello], 1, none⟩ : Group).reviews = [rHello] :=
  ⟨by decide, (c5_clustering_small_inputs.2.2.1 70 rHello).2 _ (by decide)⟩

namespace CalendarView

theorem addDay_count_eq (m : List (ℤ × (List Review × ℕ × List ℤ))) (k : ℤ)
    (r : Review) (rat : ℤ) (hm : ∀ q ∈ m, q.2.2.1 = q.2.2.2.length) :
    ∀ q ∈ groupPass.addDay m k r rat, q.2.2.1 = q.2.2.2.length := by
  induction m with
  | nil =>
      intro q hq
      simp only [groupPass.addDay, List.mem_singleton] at hq
      subst hq
      rfl
  | cons p rest ih =>
      obtain ⟨k2, rs, c, rats⟩ := p
      intro q hq
      simp only [groupPass.addDay] at hq
      by_cases h : k2 = k
      · rw [if_pos h] at hq
        rcases List.mem_cons.1 hq with rfl | hq
        · have := hm (k2, rs, c, rats) (by simp)
          simp only at this ⊢
          simp [this]
        · exact hm q (by simp [hq])
      · rw [if_neg h] at hq
        rcases List.mem_cons.1 hq with rfl | hq
        · exact hm (k2, rs, c, rats) (by simp)
        · exact ih (fun q hq => hm q (by simp [hq])) q hq

theorem groupPass_count_eq (now : ℤ) (oracle : JStr → Option ℤ)
    (reviews : List Review) (m : List (ℤ × (List Review × ℕ × List ℤ)))
    (hm : ∀ q ∈ m, q.2.2.1 = q.2.2.2.length) :
    ∀ q ∈ groupPass now oracle reviews m, q.2.2.1 = q.2.2.2.length := by
  induction reviews generalizing m with
  | nil => simpa [groupPass] using hm
  | cons r rest ih =>
      simp only [groupPass]
      exact ih _ (addDay_count_eq m _ r _ hm)

theorem crisis_iff (now : ℤ) (oracle : JStr → Option ℤ) (reviews : List Review)
    (k : ℤ) (d : DayData) (hmem : (k, d) ∈ reviewsByDate now oracle reviews) :
    (d.isCrisis = true ↔ (3 ≤ d.count ∧ (1 : ℚ) / 2 < (d.lowRatingCount : ℚ) / (d.count : ℚ))) := by
  unfold reviewsByDate at hmem
  rcases List.mem_map.1 hmem with ⟨p, hp, heq⟩
  have hcnt : p.2.2.1 = p.2.2.2.length := groupPass_count_eq now oracle reviews [] (by simp) p hp
  have hd : d = processDay p.2 := congrArg Prod.snd heq |>.symm
  subst hd
  unfold processDay
  simp only [Bool.and_eq_true, decide_eq_true_eq]
  constructor
  · rintro ⟨h1, h2⟩
    exact ⟨by simpa [hcnt] using h2, by simpa [hcnt] using h1⟩
  · rintro ⟨h1, h2⟩
    exact ⟨by simpa [hcnt] using h2, by simpa [hcnt] using h1⟩

end CalendarView

open CalendarView

example : reviewsByDate 0 orcNone [r1a, r1b, r5a] =
    [(0, ⟨[r1a, r1b, r5a], 3, 7/3, true, 2⟩)] := by
  have p1 : jsOr0 (parseIntJS r1a.star_rating) = 1 := by decide
  have p2 : jsOr0 (parseIntJS r1b.star_rating) = 1 := by decide
  have p3 : jsOr0 (parseIntJS r5a.star_rating) = 5 := by decide
  have d1 : dayKey (parseDate 0 orcNone r1a.date) = 0 := by decide
  have d2 : dayKey (parseDate 0 orcNone r1b.date) = 0 := by decide
  have d3 : dayKey (parseDate 0 orcNone r5a.date) = 0 := by decide
  norm_num [reviewsByDate, groupPass, groupPass.addDay, processDay,
    p1, p2, p3, d1, d2, d3]

namespace CalendarView

theorem crisis_example_115 : reviewsByDate 0 orcNone [r1a, r1b, r5a] =
    [(0, ⟨[r1a, r1b, r5a], 3, 7/3, true, 2⟩)] := by
  have p1 : jsOr0 (parseIntJS r1a.star_rating) = 1 := by decide
  have p2 : jsOr0 (parseIntJS r1b.star_rating) = 1 := by decide
  have p3 : jsOr0 (parseIntJS r5a.star_rating) = 5 := by decide
  have d1 : dayKey (parseDate 0 orcNone r1a.date) = 0 := by decide
  have d2 : dayKey (parseDate 0 orcNone r1b.date) = 0 := by decide
  have d3 : dayKey (parseDate 0 orcNone r5a.date) = 0 := by decide
  norm_num [reviewsByDate, groupPass, groupPass.addDay, processDay,
    p1, p2, p3, d1, d2, d3]

theorem crisis_example_333 : reviewsByDate 0 orcNone [r3a, r3b, r3c] =
    [(0, ⟨[r3a, r3b, r3c], 3, 3, false, 0⟩)] := by
  have p1 : jsOr0 (parseIntJS r3a.star_rating) = 3 := by decide
  have p2 : jsOr0 (parseIntJS r3b.star_rating) = 3 := by decide
  have p3 : jsOr0 (parseIntJS r3c.star_rating) = 3 := by decide
  have d1 : dayKey (parseDate 0 orcNone r3a.date) = 0 := by decide
  have d2 : dayKey (parseDate 0 orcNone r3b.date) = 0 := by decide
  have d3 : dayKey (parseDate 0 orcNone r3c.date) = 0 := by decide
  norm_num [reviewsByDate, groupPass, groupPass.addDay, processDay,
    p1, p2, p3, d1, d2, d3]

theorem crisis_example_11 : reviewsByDate 0 orcNone [r1a, r1b] =
    [(0, ⟨[r1a, r1b], 2, 1, false, 2⟩)] := by
  have p1 : jsOr0 (parseIntJS r1a.star_rating) = 1 := by decide
  have p2 : jsOr0 (parseIntJS r1b.star_rating) = 1 := by decide
  have d1 : dayKey (parseDate 0 orcNone r1a.date) = 0 := by decide
  have d2 : dayKey (parseDate 0 orcNone r1b.date) = 0 := by decide
  norm_num [reviewsByDate, groupPass, groupPass.addDay, processDay, p1, p2, d1, d2]

theorem addDay_mem_new (m : List (ℤ × (List Review × ℕ × List ℤ))) (k : ℤ)
    (r : Review) (rat : ℤ) :
    ∃ e, (k, e) ∈ groupPass.addDay m k r rat ∧ r ∈ e.1 := by
  induction m with
  | nil => exact ⟨([r], 1, [rat]), by simp [groupPass.addDay]⟩
  | cons p rest ih =>
      obtain ⟨k2, rs, c, rats⟩ := p
      simp only [groupPass.addDay]
      by_cases h : k2 = k
      · subst h
        exact ⟨(rs ++ [r], c + 1, rats ++ [rat]), by simp⟩
      · rcases ih with ⟨e, he, hr⟩
        exact ⟨e, by simp [h, he], hr⟩

theorem addDay_mem_mono (m : List (ℤ × (List Review × ℕ × List ℤ))) (k0 : ℤ)
    (r0 : Review) (rat : ℤ) (k : ℤ) (r : Review)
    (h : ∃ e, (k, e) ∈ m ∧ r ∈ e.1) :
    ∃ e, (k, e) ∈ groupPass.addDay m k0 r0 rat ∧ r ∈ e.1 := by
  induction m with
  | nil => simp at h
  | cons p rest ih =>
      obtain ⟨k2, rs, c, rats⟩ := p
      rcases h with ⟨e, he, hr⟩
      simp only [groupPass.addDay]
      by_cases hk : k2 = k0
      · rw [if_pos hk]
        rcases List.mem_cons.1 he with heq | he
        · obtain ⟨h1, h2⟩ := Prod.mk.injEq .. ▸ heq
          refine ⟨(rs ++ [r0], c + 1, rats ++ [rat]), by simp [← h1], ?_⟩
          have : e = (rs, c, rats) := by
            simpa using congrArg Prod.snd heq
          subst this
          exact List.mem_append_left _ hr
        · exact ⟨e, by simp [he], hr⟩
      · rw [if_neg hk]
        rcases List.mem_cons.1 he with heq | he
        · exact ⟨e, by simp [heq], hr⟩
        · rcases ih ⟨e, he, hr⟩ with ⟨e2, he2, hr2⟩
          exact ⟨e2, by simp [he2], hr2⟩

theorem groupPass_mem_mono (now : ℤ) (oracle : JStr → Option ℤ)
    (reviews : List Review) (m : List (ℤ × (List Review × ℕ × List ℤ)))
    (k : ℤ) (r : Review) (h : ∃ e, (k, e) ∈ m ∧ r ∈ e.1) :
    ∃ e, (k, e) ∈ groupPass now oracle reviews m ∧ r ∈ e.1 := by
  induction reviews generalizing m with
  | nil => simpa [groupPass] using h
  | cons r0 rest ih =>
      simp only [groupPass]
      exact ih _ (addDay_mem_mono m _ r0 _ k r h)

theorem groupPass_mem_of_mem (now : ℤ) (oracle : JStr → Option ℤ)
    (reviews : List Review) (m : List (ℤ × (List Review × ℕ × List ℤ)))
    (r : Review) (h : r ∈ reviews) :
    ∃ e, (dayKey (parseDate now oracle r.date), e) ∈ groupPass now oracle reviews m ∧
      r ∈ e.1 := by
  induction reviews generalizing m with
  | nil => simp at h
  | cons r0 rest ih =>
      simp only [groupPass]
      rcases List.mem_cons.1 h with rfl | h
      · exact groupPass_mem_mono now oracle rest _ _ r
          (addDay_mem_new m _ r _)
      · exact ih _ h

theorem addDay_keys_sound (m : List (ℤ × (List Review × ℕ × List ℤ)))
    (now : ℤ) (oracle : JStr → Option ℤ) (k0 : ℤ) (r0 : Review) (rat : ℤ)
    (hm : ∀ p ∈ m, ∀ r ∈ p.2.1, dayKey (parseDate now oracle r.date) = p.1)
    (h0 : dayKey (parseDate now oracle r0.date) = k0) :
    ∀ p ∈ groupPass.addDay m k0 r0 rat, ∀ r ∈ p.2.1,
      dayKey (parseDate now oracle r.date) = p.1 := by
  induction m with
  | nil =>
      intro p hp r hr
      simp only [groupPass.addDay, List.mem_singleton] at hp
      subst hp
      simp only [List.mem_singleton] at hr
      subst hr
      exact h0
  | cons q rest ih =>
      obtain ⟨k2, rs, c, rats⟩ := q
      intro p hp r hr
      simp only [groupPass.addDay] at hp
      by_cases hk : k2 = k0
      · rw [if_pos hk] at hp
        rcases List.mem_cons.1 hp with rfl | hp
        · simp only at hr
          rcases List.mem_append.1 hr with hr | hr
          · exact hm (k2, rs, c, rats) (by simp) r hr
          · simp only [List.mem_singleton] at hr
            subst hr
            rw [h0, hk]
        · exact hm p (by simp [hp]) r hr
      · rw [if_neg hk] at hp
        rcases List.mem_cons.1 hp with rfl | hp
        · exact hm (k2, rs, c, rats) (by simp) r hr
        · exact ih (fun q hq => hm q (by simp [hq])) p hp r hr

theorem groupPass_keys_sound (now : ℤ) (oracle : JStr → Option ℤ)
    (reviews : List Review) (m : List (ℤ × (List Review × ℕ × List ℤ)))
    (hm : ∀ p ∈ m, ∀ r ∈ p.2.1, dayKey (parseDate now oracle r.date) = p.1) :
    ∀ p ∈ groupPass now oracle reviews m, ∀ r ∈ p.2.1,
      dayKey (parseDate now oracle r.date) = p.1 := by
  induction reviews generalizing m with
  | nil => simpa [groupPass] using hm
  | cons r0 rest ih =>
      simp only [groupPass]
      exact ih _ (addDay_keys_sound m now oracle _ r0 _ hm rfl)

end CalendarView

/-- C6: a calendar-day bucket's crisis flag is set exactly when the day
has at least 3 reviews and the low-rating (≤2) share exceeds one half; in
particular a {1,1,5} day is flagged while {3,3,3} and {1,1} days are
not. -/
theorem c6_crisis_flag :
    (∀ (now : ℤ) (oracle : JStr → Option ℤ) (reviews : List Review) (k : ℤ)
      (d : CalendarView.DayData),
      (k, d) ∈ CalendarView.reviewsByDate now oracle reviews →
      (d.isCrisis = true ↔
        (3 ≤ d.count ∧ (1 : ℚ) / 2 < (d.lowRatingCount : ℚ) / (d.count : ℚ)))) ∧
    (∃ d : CalendarView.DayData,
      ((0 : ℤ), d) ∈ CalendarView.reviewsByDate 0 orcNone [r1a, r1b, r5a] ∧
      d.isCrisis = true) ∧
    (∃ d : CalendarView.DayData,
      ((0 : ℤ), d) ∈ CalendarView.reviewsByDate 0 orcNone [r3a, r3b, r3c] ∧
      d.isCrisis = false) ∧
    (∃ d : CalendarView.DayData,
      ((0 : ℤ), d) ∈ CalendarView.reviewsByDate 0 orcNone [r1a, r1b] ∧
      d.isCrisis = false) := by
  refine ⟨CalendarView.crisis_iff,
    ⟨⟨[r1a, r1b, r5a], 3, 7/3, true, 2⟩, ?_, rfl⟩,
    ⟨⟨[r3a, r3b, r3c], 3, 3, false, 0⟩, ?_, rfl⟩,
    ⟨⟨[r1a, r1b], 2, 1, false, 2⟩, ?_, rfl⟩⟩
  · rw [CalendarView.crisis_example_115]; exact List.mem_singleton.2 rfl
  · rw [CalendarView.crisis_example_333]; exact List.mem_singleton.2 rfl
  · rw [CalendarView.crisis_example_11]; exact List.mem_singleton.2 rfl

/-- C6 witness: the general crisis criterion instantiated on the concrete
{1,1,5} day. -/
theorem c6_witness :
    (((0 : ℤ), (⟨[r1a, r1b, r5a], 3, 7/3, true, 2⟩ : CalendarView.DayData)) ∈
      CalendarView.reviewsByDate 0 orcNone [r1a, r1b, r5a]) ∧
    ((⟨[r1a, r1b, r5a], 3, 7/3, true, 2⟩ : CalendarView.DayData).isCrisis = true ↔
      (3 ≤ (⟨[r1a, r1b, r5a], 3, 7/3, true, 2⟩ : CalendarView.DayData).count ∧
        (1 : ℚ) / 2 <
          ((⟨[r1a, r1b, r5a], 3, 7/3, true, 2⟩ : CalendarView.DayData).lowRatingCount : ℚ) /
          ((⟨[r1a, r1b, r5a], 3, 7/3, true, 2⟩ : CalendarView.DayData).count : ℚ))) := by
  have hm : ((0 : ℤ), (⟨[r1a, r1b, r5a], 3, 7/3, true, 2⟩ : CalendarView.DayData)) ∈
      CalendarView.reviewsByDate 0 orcNone [r1a, r1b, r5a] := by
    rw [CalendarView.crisis_example_115]; exact List.mem_singleton.2 rfl
  exact ⟨hm, c6_crisis_flag.1 0 orcNone [r1a, r1b, r5a] 0 _ hm⟩

/-- C9, claim as stated is refuted: a review whose date normalizes to the
epoch sentinel is NOT excluded — it lands in the calendar bucket of the
epoch day (the source's invalid-date guard never fires because `parseDate`
always returns a valid instant). -/
theorem c9_counterexample :
    ∃ d : CalendarView.DayData,
      ((0 : ℤ), d) ∈ CalendarView.reviewsByDate 0 orcNone [rBad] ∧
      rBad ∈ d.reviews ∧ parseDate 0 orcNone rBad.date = 0 := by
  have h : CalendarView.reviewsByDate 0 orcNone [rBad] =
      [(0, ⟨[rBad], 1, 4, false, 0⟩)] := by
    have p1 : jsOr0 (parseIntJS rBad.star_rating) = 4 := by decide
    have d1 : dayKey (parseDate 0 orcNone rBad.date) = 0 := by decide
    norm_num [CalendarView.reviewsByDate, CalendarView.groupPass,
      CalendarView.groupPass.addDay, CalendarView.processDay, p1, d1]
  exact ⟨⟨[rBad], 1, 4, false, 0⟩, by rw [h]; exact List.mem_singleton.2 rfl,
    by simp, by decide⟩

/-- C9, amended: the calendar analyzer buckets EVERY review (including
sentinel-dated ones, which go to the epoch day) by the calendar day of its
normalized date, and every bucket member's normalized day equals the
bucket key. -/
theorem c9_bucketing :
    ∀ (now : ℤ) (oracle : JStr → Option ℤ) (reviews : List Review),
      (∀ r ∈ reviews, ∃ d : CalendarView.DayData,
        (dayKey (parseDate now oracle r.date), d) ∈
          CalendarView.reviewsByDate now oracle reviews ∧ r ∈ d.reviews) ∧
      (∀ (k : ℤ) (d : CalendarView.DayData),
        (k, d) ∈ CalendarView.reviewsByDate now oracle reviews →
        ∀ r ∈ d.reviews, dayKey (parseDate now oracle r.date) = k) := by
  intro now oracle reviews
  constructor
  · intro r hr
    rcases CalendarView.groupPass_mem_of_mem now oracle reviews [] r hr with ⟨e, he, hre⟩
    refine ⟨CalendarView.processDay e, ?_, hre⟩
    unfold CalendarView.reviewsByDate
    exact List.mem_map.2 ⟨(dayKey (parseDate now oracle r.date), e), he, rfl⟩
  · intro k d hd r hr
    unfold CalendarView.reviewsByDate at hd
    rcases List.mem_map.1 hd with ⟨p, hp, heq⟩
    have hk : p.1 = k := congrArg Prod.fst heq
    have hdp : CalendarView.processDay p.2 = d := congrArg Prod.snd heq
    have hrev : r ∈ p.2.1 := by
      have : d.reviews = p.2.1 := by rw [← hdp]; rfl
      rwa [this] at hr
    rw [← hk]
    exact CalendarView.groupPass_keys_sound now oracle reviews [] (by simp) p hp r hrev

/-- C9 witness: the bucketing theorem instantiated on a concrete
unparseable-date review. -/
theorem c9_witness :
    ∃ d : CalendarView.DayData,
      (dayKey (parseDate 0 orcNone rBad.date), d) ∈
        CalendarView.reviewsByDate 0 orcNone [rBad] ∧ rBad ∈ d.reviews :=
  (c9_bucketing 0 orcNone [rBad]).1 rBad (by decide)

/-- C2 (code bug): on a review with an empty `useful_count` the quality
score is `NaN` (modelled `none`), not an integer in [0,100] — the
engagement term `Math.min(parseInt(useful_count) * 2, 20)` lacks the
`|| 0` fallback used elsewhere and contradicts the function's own
"(0-20 points)" summand comments. -/
theorem c2_quality_score_nan :
    Dashboard.calculateQualityScore (mkRev "" "" "" "" "") = none := by decide

namespace ReviewGrouping

theorem lev_eq_zero_iff : ∀ s t : JStr, levenshteinDistance s t = 0 ↔ s = t := by
  intro s
  induction s with
  | nil =>
      intro t
      cases t <;> simp [levenshteinDistance]
  | cons a s ih =>
      intro t
      cases t with
      | nil => simp [levenshteinDistance]
      | cons b t =>
          by_cases hab : a = b
          · subst hab
            simp [levenshteinDistance, ih t]
          · simp [levenshteinDistance, hab]

theorem lev_symm : ∀ s t : JStr, levenshteinDistance s t = levenshteinDistance t s := by
  intro s t
  induction s, t using levenshteinDistance.induct with
  | case1 t =>
      cases t <;> simp [levenshteinDistance]
  | case2 s h =>
      cases s <;> simp [levenshteinDistance]
  | case3 s b t ih => simp [levenshteinDistance, ih]
  | case4 a s b t hab ih1 ih2 ih3 =>
      rw [levenshteinDistance, levenshteinDistance]
      rw [if_neg hab, if_neg (fun h => hab h.symm)]
      rw [ih1, ih2, ih3]
      omega

theorem lev_self_eq_zero (s : JStr) : levenshteinDistance s s = 0 :=
  (lev_eq_zero_iff s s).2 rfl

theorem calculateSimilarity_self (s : JStr) (h : s ≠ []) :
    calculateSimilarity s s = 100 := by
  unfold calculateSimilarity
  rw [Bool.or_self, if_neg (by simp [h]), lev_self_eq_zero]
  have hM : ((max s.length s.length : ℕ) : ℚ) ≠ 0 := by
    simpa using fun hc => h (List.length_eq_zero.1 hc)
  rw [if_neg (by simpa using fun hc => h (List.length_eq_zero.1 hc))]
  have hM2 : ((s.length : ℕ) : ℚ) ≠ 0 := by
    simpa using fun hc => h (List.length_eq_zero.1 hc)
  rw [max_self, Nat.cast_zero, sub_zero, div_mul_eq_mul_div, mul_comm, mul_div_assoc,
    div_self hM2, mul_one]

theorem simGroups_AA : similarityGroups 100 [rA1, rA2] =
    [⟨0, "aaaa".toList, [(0, rA1), (1, rA2)]⟩] := by
  have hxa : extractMainText rA1.review_text = "aaaa".toList := by decide
  have hxb : extractMainText rA2.review_text = "aaaa".toList := by decide
  have hsim : (100 : ℚ) ≤ calculateSimilarity ['a', 'a', 'a', 'a'] ['a', 'a', 'a', 'a'] := by
    rw [calculateSimilarity_self _ (by decide)]
  simp [similarityGroups, outerScan, innerScan, insertionSortB, orderedInsertB,
    hxa, hxb, hsim, List.enum]

theorem innerScan_proc_mono (θ : ℚ) (mt : JStr) (i : ℕ) :
    ∀ (l : List (ℕ × Review)) (proc : List ℕ) (x : ℕ),
      x ∈ proc → x ∈ (innerScan θ mt i l proc).2 := by
  intro l
  induction l with
  | nil => intro proc x hx; simpa [innerScan] using hx
  | cons jr rest ih =>
      obtain ⟨j, r⟩ := jr
      intro proc x hx
      simp only [innerScan]
      by_cases h1 : j = i ∨ j ∈ proc
      · rw [if_pos h1]; exact ih proc x hx
      · rw [if_neg h1]
        by_cases h2 : θ ≤ calculateSimilarity mt (extractMainText r.review_text)
        · rw [if_pos h2]; exact ih (j :: proc) x (by simp [hx])
        · rw [if_neg h2]; exact ih proc x hx

theorem innerScan_mem (θ : ℚ) (mt : JStr) (i : ℕ) :
    ∀ (l : List (ℕ × Review)) (proc : List ℕ) (x : ℕ × Review),
      x ∈ (innerScan θ mt i l proc).1 →
      x ∈ l ∧ x.1 ∉ proc ∧ x.1 ≠ i ∧
        θ ≤ calculateSimilarity mt (extractMainText x.2.review_text) ∧
        x.1 ∈ (innerScan θ mt i l proc).2 := by
  intro l
  induction l with
  | nil => intro proc x hx; simp [innerScan] at hx
  | cons jr rest ih =>
      obtain ⟨j, r⟩ := jr
      intro proc x hx
      simp only [innerScan] at hx ⊢
      by_cases h1 : j = i ∨ j ∈ proc
      · rw [if_pos h1] at hx ⊢
        rcases ih proc x hx with ⟨hl, hnp, hni, hs, hp⟩
        exact ⟨by simp [hl], hnp, hni, hs, hp⟩
      · rw [if_neg h1] at hx ⊢
        push_neg at h1
        by_cases h2 : θ ≤ calculateSimilarity mt (extractMainText r.review_text)
        · rw [if_pos h2] at hx ⊢
          rcases List.mem_cons.1 hx with rfl | hx
          · exact ⟨by simp, h1.2, h1.1, h2,
              innerScan_proc_mono θ mt i rest (j :: proc) j (by simp)⟩
          · rcases ih (j :: proc) x hx with ⟨hl, hnp, hni, hs, hp⟩
            exact ⟨by simp [hl], fun hc => hnp (by simp [hc]), hni, hs, hp⟩
        · rw [if_neg h2] at hx ⊢
          rcases ih proc x hx with ⟨hl, hnp, hni, hs, hp⟩
          exact ⟨by simp [hl], hnp, hni, hs, hp⟩

theorem innerScan_members_pairwise (θ : ℚ) (mt : JStr) (i : ℕ) :
    ∀ (l : List (ℕ × Review)) (proc : List ℕ),
      (innerScan θ mt i l proc).1.Pairwise fun x y => x.1 ≠ y.1 := by
  intro l
  induction l with
  | nil => intro proc; simp [innerScan]
  | cons jr rest ih =>
      obtain ⟨j, r⟩ := jr
      intro proc
      simp only [innerScan]
      by_cases h1 : j = i ∨ j ∈ proc
      · rw [if_pos h1]; exact ih proc
      · rw [if_neg h1]
        by_cases h2 : θ ≤ calculateSimilarity mt (extractMainText r.review_text)
        · rw [if_pos h2]
          refine List.Pairwise.cons ?_ (ih (j :: proc))
          intro y hy
          have := (innerScan_mem θ mt i rest (j :: proc) y hy).2.1
          simp only [List.mem_cons] at this
          push_neg at this
          exact fun hc => this.1 hc.symm
        · rw [if_neg h2]; exact ih proc

theorem innerScan_empty_proc (θ : ℚ) (mt : JStr) (i : ℕ) :
    ∀ (l : List (ℕ × Review)) (proc : List ℕ),
      (innerScan θ mt i l proc).1 = [] → (innerScan θ mt i l proc).2 = proc := by
  intro l
  induction l with
  | nil => intro proc _; rfl
  | cons jr rest ih =>
      obtain ⟨j, r⟩ := jr
      intro proc hx
      simp only [innerScan] at hx ⊢
      by_cases h1 : j = i ∨ j ∈ proc
      · rw [if_pos h1] at hx ⊢; exact ih proc hx
      · rw [if_neg h1] at hx ⊢
        by_cases h2 : θ ≤ calculateSimilarity mt (extractMainText r.review_text)
        · rw [if_pos h2] at hx; simp at hx
        · rw [if_neg h2] at hx ⊢; exact ih proc hx

theorem innerScan_empty_nosim (θ : ℚ) (mt : JStr) (i : ℕ) :
    ∀ (l : List (ℕ × Review)) (proc : List ℕ),
      (innerScan θ mt i l proc).1 = [] →
      ∀ x ∈ l, x.1 ∉ proc → x.1 ≠ i →
        ¬ θ ≤ calculateSimilarity mt (extractMainText x.2.review_text) := by
  intro l
  induction l with
  | nil => intro proc _ x hx; simp at hx
  | cons jr rest ih =>
      obtain ⟨j, r⟩ := jr
      intro proc hemp x hx hnp hni
      simp only [innerScan] at hemp
      by_cases h1 : j = i ∨ j ∈ proc
      · rw [if_pos h1] at hemp
        rcases List.mem_cons.1 hx with rfl | hx
        · rcases h1 with h1 | h1
          · exact absurd h1 hni
          · exact absurd h1 hnp
        · exact ih proc hemp x hx hnp hni
      · rw [if_neg h1] at hemp
        by_cases h2 : θ ≤ calculateSimilarity mt (extractMainText r.review_text)
        · rw [if_pos h2] at hemp; simp at hemp
        · rw [if_neg h2] at hemp
          rcases List.mem_cons.1 hx with rfl | hx
          · exact h2
          · exact ih proc hemp x hx hnp hni

theorem lower_eq_of_sim_ge_100 (s t : JStr) (h : (100 : ℚ) ≤ calculateSimilarity s t) :
    lower s = lower t := by
  unfold calculateSimilarity at h
  by_cases hs : s.isEmpty
  · rw [if_pos (by simp [hs])] at h; norm_num at h
  by_cases ht : t.isEmpty
  · rw [if_pos (by simp [hs, ht])] at h; norm_num at h
  rw [if_neg (by simp [hs, ht])] at h
  have hM0 : max s.length t.length ≠ 0 := by
    intro hc
    rcases Nat.max_eq_zero_iff.1 hc with ⟨h1, _⟩
    exact absurd (by simp [List.length_eq_zero.1 h1]) hs
  rw [if_neg hM0] at h
  have hMQ : (0 : ℚ) < (max s.length t.length : ℕ) :=
    Nat.cast_pos.2 (Nat.pos_of_ne_zero hM0)
  rw [div_mul_eq_mul_div, le_div_iff hMQ] at h
  have hd : ((levenshteinDistance (lower s) (lower t) : ℕ) : ℚ) ≤ 0 := by linarith
  have hd0 : levenshteinDistance (lower s) (lower t) = 0 :=
    Nat.le_zero.1 (by exact_mod_cast hd)
  exact (lev_eq_zero_iff _ _).1 hd0

theorem outerScan_inv (θ : ℚ) (all : List (ℕ × Review)) :
    ∀ (pending : List (ℕ × Review)) (groups : List SimGroupI) (proc : List ℕ),
      (∀ g ∈ groups, ∀ x ∈ g.members, x.1 ∈ proc) →
      (groups.Pairwise fun g1 g2 => ∀ x ∈ g1.members, ∀ y ∈ g2.members, x.1 ≠ y.1) →
      (∀ g ∈ groups, g.members.Pairwise fun x y => x.1 ≠ y.1) →
      (∀ g ∈ groups, ∀ x ∈ g.members,
        (x.1 = g.seed ∧ extractMainText x.2.review_text = g.representative) ∨
          θ ≤ calculateSimilarity g.representative (extractMainText x.2.review_text)) →
      ((outerScan θ all pending groups proc).Pairwise fun g1 g2 =>
          ∀ x ∈ g1.members, ∀ y ∈ g2.members, x.1 ≠ y.1) ∧
      (∀ g ∈ outerScan θ all pending groups proc,
        g.members.Pairwise fun x y => x.1 ≠ y.1) ∧
      (∀ g ∈ outerScan θ all pending groups proc, ∀ x ∈ g.members,
        (x.1 = g.seed ∧ extractMainText x.2.review_text = g.representative) ∨
          θ ≤ calculateSimilarity g.representative (extractMainText x.2.review_text)) := by
  intro pending
  induction pending with
  | nil =>
      intro groups proc h1 h2 h3 h4
      exact ⟨h2, h3, h4⟩
  | cons ir rest ih =>
      obtain ⟨i, r⟩ := ir
      intro groups proc h1 h2 h3 h4
      simp only [outerScan]
      by_cases hin : i ∈ proc
      · rw [if_pos hin]
        exact ih groups proc h1 h2 h3 h4
      · rw [if_neg hin]
        by_cases hms : (innerScan θ (extractMainText r.review_text) i all proc).1.isEmpty
        · rw [if_pos hms]
          refine ih groups _ ?_ h2 h3 h4
          intro g hg x hx
          exact innerScan_proc_mono θ _ i all proc x.1 (h1 g hg x hx)
        · rw [if_neg hms]
          refine ih _ _ ?_ ?_ ?_ ?_
          · intro g hg x hx
            rcases List.mem_append.1 hg with hg | hg
            · exact List.mem_cons_of_mem _
                (innerScan_proc_mono θ _ i all proc x.1 (h1 g hg x hx))
            · simp only [List.mem_singleton] at hg
              subst hg
              rcases List.mem_cons.1 hx with rfl | hx
              · simp
              · exact List.mem_cons_of_mem _
                  (innerScan_mem θ _ i all proc x hx).2.2.2.2
          · rw [List.pairwise_append]
            refine ⟨h2, by simp, ?_⟩
            intro g hg g0 hg0 x hx y hy
            simp only [List.mem_singleton] at hg0
            subst hg0
            have hxp : x.1 ∈ proc := h1 g hg x hx
            rcases List.mem_cons.1 hy with rfl | hy
            · intro hc
              have hc2 : x.1 = i := hc
              exact hin (hc2 ▸ hxp)
            · intro hc
              exact (innerScan_mem θ _ i all proc y hy).2.1 (hc ▸ hxp)
          · intro g hg
            rcases List.mem_append.1 hg with hg | hg
            · exact h3 g hg
            · simp only [List.mem_singleton] at hg
              subst hg
              refine List.Pairwise.cons ?_ (innerScan_members_pairwise θ _ i all proc)
              intro y hy
              exact fun hc => (innerScan_mem θ _ i all proc y hy).2.2.1 hc.symm
          · intro g hg x hx
            rcases List.mem_append.1 hg with hg | hg
            · exact h4 g hg x hx
            · simp only [List.mem_singleton] at hg
              subst hg
              rcases List.mem_cons.1 hx with rfl | hx
              · exact Or.inl ⟨rfl, rfl⟩
              · exact Or.inr (innerScan_mem θ _ i all proc x hx).2.2.2.1

end ReviewGrouping

/-- C3: similarity-mode clustering produces pairwise disjoint groups (no
review occurrence is claimed by two groups), and with threshold 100 every
member of a group has a main text identical (case-insensitively) to the
group's representative — the seed's main text; the displayed
similarity-mode output is exactly the projection of these groups. -/
theorem c3_similarity_disjoint :
    ∀ (θ : ℚ) (reviews : List Review),
      ((ReviewGrouping.similarityGroups θ reviews).Pairwise fun g1 g2 =>
        ∀ x ∈ g1.members, ∀ y ∈ g2.members, x.1 ≠ y.1) ∧
      (θ = 100 → ∀ g ∈ ReviewGrouping.similarityGroups θ reviews, ∀ x ∈ g.members,
        lower (extractMainText x.2.review_text) = lower g.representative) ∧
      (reviews ≠ [] → ReviewGrouping.groupedReviews "similarity".toList θ reviews =
        (ReviewGrouping.similarityGroups θ reviews).map ReviewGrouping.toGroup) := by
  intro θ reviews
  have base := ReviewGrouping.outerScan_inv θ reviews.enum reviews.enum [] []
    (by simp) (by simp) (by simp) (by simp)
  refine ⟨?_, ?_, ?_⟩
  · exact ((RS.insertionSortB_perm ReviewGrouping.countLe _).pairwise_iff
      (fun {g1 g2} h x hx y hy => (h y hy x hx).symm)).2 base.1
  · intro h100 g hg x hx
    have hg2 : g ∈ ReviewGrouping.outerScan θ reviews.enum reviews.enum [] [] :=
      (RS.mem_insertionSortB ReviewGrouping.countLe g _).1 hg
    rcases base.2.2 g hg2 x hx with ⟨_, hrep⟩ | hsim
    · rw [hrep]
    · subst h100
      exact (ReviewGrouping.lower_eq_of_sim_ge_100 _ _ hsim).symm
  · intro hne
    unfold ReviewGrouping.groupedReviews
    rw [if_neg (by simp [hne]), if_neg (by decide), if_pos rfl]

/-- C3 witness: the threshold-100 identity property instantiated on a
concrete two-review input forming one group. -/
theorem c3_witness :
    ((⟨0, "aaaa".toList, [(0, rA1), (1, rA2)]⟩ : ReviewGrouping.SimGroupI) ∈
      ReviewGrouping.similarityGroups 100 [rA1, rA2]) ∧
    lower (extractMainText rA2.review_text) =
      lower (⟨0, "aaaa".toList,
        [(0, rA1), (1, rA2)]⟩ : ReviewGrouping.SimGroupI).representative := by
  have hg : (⟨0, "aaaa".toList, [(0, rA1), (1, rA2)]⟩ : ReviewGrouping.SimGroupI) ∈
      ReviewGrouping.similarityGroups 100 [rA1, rA2] := by
    rw [ReviewGrouping.simGroups_AA]
    exact List.mem_singleton.2 rfl
  exact ⟨hg, (c3_similarity_disjoint 100 [rA1, rA2]).2.1 rfl _ hg (1, rA2) (by simp)⟩

namespace ReviewGrouping

theorem calculateSimilarity_symm (s t : JStr) :
    calculateSimilarity s t = calculateSimilarity t s := by
  by_cases hs : s.isEmpty <;> by_cases ht : t.isEmpty <;>
    simp only [calculateSimilarity, hs, ht, Bool.true_or, Bool.or_true,
      Bool.false_or, Bool.or_false, if_true, if_false]
  rw [lev_symm, Nat.max_comm]

theorem enumFrom_pairwise {α : Type} (l : List α) :
    ∀ n, (List.enumFrom n l).Pairwise fun p q => p.1 < q.1 := by
  induction l with
  | nil => intro n; simp
  | cons a l ih =>
      intro n
      refine List.Pairwise.cons ?_ (ih (n + 1))
      rintro ⟨i, x⟩ hq
      have := (List.mem_enumFrom hq).1
      simpa using by omega

theorem enum_pairwise {α : Type} (l : List α) :
    l.enum.Pairwise fun p q => p.1 < q.1 := by
  have := enumFrom_pairwise l 0
  simpa [List.enum] using this

theorem innerScan_eq_spec (θ : ℚ) (mt : JStr) (i : ℕ) :
    ∀ (l : List (ℕ × Review)) (proc : List ℕ),
      (∀ x ∈ l, x.1 ∉ proc → x.1 ≠ i → x.1 < i →
        ¬ θ ≤ calculateSimilarity mt (extractMainText x.2.review_text)) →
      innerScan θ mt i l proc = specInnerScan θ mt i l proc := by
  intro l
  induction l with
  | nil => intro proc _; rfl
  | cons jr rest ih =>
      obtain ⟨j, r⟩ := jr
      intro proc hdis
      simp only [innerScan, specInnerScan]
      by_cases hji : j = i
      · rw [if_pos (Or.inl hji), if_pos (Or.inl (le_of_eq hji))]
        exact ih proc fun x hx => hdis x (by simp [hx])
      · by_cases hjp : j ∈ proc
        · rw [if_pos (Or.inr hjp), if_pos (Or.inr hjp)]
          exact ih proc fun x hx => hdis x (by simp [hx])
        · rw [if_neg (by tauto)]
          by_cases hlt : j < i
          · have hns : ¬ θ ≤ calculateSimilarity mt (extractMainText r.review_text) :=
              hdis (j, r) (by simp) hjp hji hlt
            rw [if_neg hns, if_pos (Or.inl (le_of_lt hlt))]
            exact ih proc fun x hx => hdis x (by simp [hx])
          · have hgt : i < j := lt_of_le_of_ne (not_lt.1 hlt) (Ne.symm hji)
            rw [if_neg (show ¬ (j ≤ i ∨ j ∈ proc) from fun hc =>
              hc.elim (fun h => absurd hgt (not_lt.2 h)) hjp)]
            by_cases hsim : θ ≤ calculateSimilarity mt (extractMainText r.review_text)
            · rw [if_pos hsim, if_pos hsim]
              rw [ih (j :: proc) fun x hx hxp hxi hxlt => hdis x (by simp [hx])
                (fun hc => hxp (by simp [hc])) hxi hxlt]
            · rw [if_neg hsim, if_neg hsim]
              exact ih proc fun x hx => hdis x (by simp [hx])

end ReviewGrouping

namespace ReviewGrouping

theorem outerScan_eq_spec (θ : ℚ) (all : List (ℕ × Review)) :
    ∀ (pending : List (ℕ × Review)) (groups : List SimGroupI) (proc : List ℕ),
      (pending.Pairwise fun p q => p.1 < q.1) →
      (∀ p ∈ pending, p ∈ all) →
      (∀ p ∈ all, p ∉ pending → p.1 ∉ proc →
        ∀ q ∈ all, q.1 ≠ p.1 → q.1 ∉ proc →
          ¬ θ ≤ calculateSimilarity (extractMainText p.2.review_text)
            (extractMainText q.2.review_text)) →
      outerScan θ all pending groups proc = specOuterScan θ all pending groups proc := by
  intro pending
  induction pending with
  | nil => intro groups proc _ _ _; rfl
  | cons ir rest ih =>
      obtain ⟨i, r⟩ := ir
      intro groups proc hsort hsub hsc
      rcases List.pairwise_cons.1 hsort with ⟨hhead, hsort2⟩
      simp only [outerScan, specOuterScan]
      by_cases hin : i ∈ proc
      · rw [if_pos hin, if_pos hin]
        refine ih groups proc hsort2 (fun p hp => hsub p (by simp [hp])) ?_
        intro p hp hpr hpp q hq hqp hqq
        by_cases hpir : p = (i, r)
        · subst hpir
          exact absurd hin hpp
        · exact hsc p hp (by simp [hpr, hpir]) hpp q hq hqp hqq
      · rw [if_neg hin, if_neg hin]
        have hieq : innerScan θ (extractMainText r.review_text) i all proc =
            specInnerScan θ (extractMainText r.review_text) i all proc := by
          apply innerScan_eq_spec
          intro x hx hxp hxi hxlt
          have hxnp : x ∉ (i, r) :: rest := by
            intro hc
            rcases List.mem_cons.1 hc with rfl | hc
            · exact hxi rfl
            · exact absurd (hhead x hc) (by omega)
          have := hsc x hx hxnp hxp (i, r) (hsub (i, r) (by simp)) (Ne.symm hxi) hin
          intro hcon
          exact this (by rwa [calculateSimilarity_symm])
        rw [← hieq]
        by_cases hms : (innerScan θ (extractMainText r.review_text) i all proc).1.isEmpty
        · rw [if_pos hms, if_pos hms]
          have hproc : (innerScan θ (extractMainText r.review_text) i all proc).2 = proc :=
            innerScan_empty_proc θ _ i all proc (by simpa [List.isEmpty_iff] using hms)
          rw [hproc]
          refine ih groups proc hsort2 (fun p hp => hsub p (by simp [hp])) ?_
          intro p hp hpr hpp q hq hqp hqq
          by_cases hpir : p = (i, r)
          · subst hpir
            exact innerScan_empty_nosim θ _ i all proc
              (by simpa [List.isEmpty_iff] using hms) q hq hqq (by simpa using hqp)
          · exact hsc p hp (by simp [hpr, hpir]) hpp q hq hqp hqq
        · rw [if_neg hms, if_neg hms]
          refine ih _ _ hsort2 (fun p hp => hsub p (by simp [hp])) ?_
          intro p hp hpr hpp q hq hqp hqq
          have hppr : p.1 ∉ proc := fun hc => hpp
            (List.mem_cons_of_mem _ (innerScan_proc_mono θ _ i all proc p.1 hc))
          have hqpr : q.1 ∉ proc := fun hc => hqq
            (List.mem_cons_of_mem _ (innerScan_proc_mono θ _ i all proc q.1 hc))
          have hpi : p ≠ (i, r) := by
            intro hc
            subst hc
            exact hpp (by simp)
          exact hsc p hp (by simp [hpr, hpi]) hppr q hq hqp hqpr

end ReviewGrouping

/-- C4: the source's similarity-mode clustering (whose inner scan walks
ALL unclaimed indices) computes exactly the specified greedy algorithm
that scans only the LATER not-yet-claimed reviews: an earlier unclaimed
review was left unclaimed precisely because its own scan found nothing
within the threshold, so by symmetry of the similarity it can never join a
later seed, and the two algorithms produce identical group lists (and
identical displayed output). -/
theorem c4_greedy_refinement :
    ∀ (θ : ℚ) (reviews : List Review),
      ReviewGrouping.similarityGroups θ reviews =
        ReviewGrouping.specSimilarityGroups θ reviews ∧
      (reviews ≠ [] → ReviewGrouping.groupedReviews "similarity".toList θ reviews =
        (ReviewGrouping.specSimilarityGroups θ reviews).map ReviewGrouping.toGroup) := by
  intro θ reviews
  have hmain : ReviewGrouping.outerScan θ reviews.enum reviews.enum [] [] =
      ReviewGrouping.specOuterScan θ reviews.enum reviews.enum [] [] :=
    ReviewGrouping.outerScan_eq_spec θ reviews.enum reviews.enum [] []
      (ReviewGrouping.enum_pairwise reviews) (fun p hp => hp)
      (fun p hp hpr => absurd hp hpr)
  constructor
  · unfold ReviewGrouping.similarityGroups ReviewGrouping.specSimilarityGroups
    rw [hmain]
  · intro hne
    unfold ReviewGrouping.groupedReviews
    rw [if_neg (by simp [hne]), if_neg (by decide), if_pos rfl]
    unfold ReviewGrouping.similarityGroups ReviewGrouping.specSimilarityGroups
    rw [hmain]

/-- C4 witness: the refinement equality instantiated on a concrete
non-empty input. -/
theorem c4_witness :
    (([rA1, rA2] : List Review) ≠ []) ∧
    ReviewGrouping.groupedReviews "similarity".toList 70 [rA1, rA2] =
      (ReviewGrouping.specSimilarityGroups 70 [rA1, rA2]).map ReviewGrouping.toGroup :=
  ⟨by decide, (c4_greedy_refinement 70 [rA1, rA2]).2 (by decide)⟩

namespace RS

theorem digit_toLower (c : Char) (h : c.isDigit = true) : c.toLower = c := by
  simp only [Char.isDigit, Bool.and_eq_true, decide_eq_true_eq] at h
  have h2 : c.val.toNat ≤ 57 := h.2
  simp only [Char.toLower]
  rw [if_neg]
  intro hc
  have h3 := hc.1
  simp only [Char.toNat] at h3
  omega

theorem digit_toLower_ne_u (c : Char) (h : c.isDigit = true) :
    Char.toLower c ≠ 'u' := by
  rw [digit_toLower c h]
  intro hc
  subst hc
  exact absurd h (by decide)

theorem updatedCapture_of_no_u (s : JStr) (h : ∀ c ∈ s, Char.toLower c ≠ 'u') :
    updatedCapture s = none := by
  induction s with
  | nil => rfl
  | cons c rest ih =>
      simp only [updatedCapture]
      rw [if_neg]
      · exact ih fun d hd => h d (by simp [hd])
      · simp only [updatedAt, Bool.and_eq_true]
        rintro ⟨h1, -⟩
        rw [show ((c :: rest).take 7) = c :: rest.take 6 by simp] at h1
        simp only [lower, List.map_cons, List.cons.injEq, decide_eq_true_eq] at h1
        exact h c (by simp) h1.1

theorem updatedCapture_prepend :
    ∀ (rest : JStr), rest ≠ [] →
      (∀ c, rest.head? = some c → isWs c = false) →
      updatedCapture ("Updated ".toList ++ rest) = some rest := by
  intro rest hne hws
  cases rest with
  | nil => exact absurd rfl hne
  | cons r0 rest2 =>
      have hr0 : isWs r0 = false := hws r0 rfl
      show updatedCapture
        ('U' :: 'p' :: 'd' :: 'a' :: 't' :: 'e' :: 'd' :: ' ' :: r0 :: rest2) =
        some (r0 :: rest2)
      rw [updatedCapture, if_pos]
      · simp only [updatedCaptureAt]
        rw [show ('U' :: 'p' :: 'd' :: 'a' :: 't' :: 'e' :: 'd' :: ' ' :: r0 ::
          rest2).drop 7 = ' ' :: r0 :: rest2 by simp]
        have hr02 : r0.isWhitespace = false := hr0
        rw [show List.dropWhile isWs (' ' :: r0 :: rest2) = r0 :: rest2 by
          simp [List.dropWhile, isWs, hr02]]
        rfl
      · simp only [updatedAt]
        rw [show ('U' :: 'p' :: 'd' :: 'a' :: 't' :: 'e' :: 'd' :: ' ' :: r0 ::
          rest2).take 7 = ['U', 'p', 'd', 'a', 't', 'e', 'd'] by simp]
        rw [show ('U' :: 'p' :: 'd' :: 'a' :: 't' :: 'e' :: 'd' :: ' ' :: r0 ::
          rest2).drop 7 = ' ' :: r0 :: rest2 by simp]
        simp [isWs]
        decide

theorem parseDate_updated (now : ℤ) (oracle : JStr → Option ℤ) (rest : JStr)
    (hne : rest ≠ []) (hws : ∀ c, rest.head? = some c → isWs c = false)
    (hupd : updatedCapture rest = none) :
    parseDate now oracle ("Updated ".toList ++ rest) = parseDate now oracle rest := by
  unfold parseDate
  rw [if_neg (by simp), if_neg (by simp [hne])]
  rw [updatedCapture_prepend rest hne hws, hupd]

theorem takeWhile_digits_append (ds : JStr) (c0 : Char) (l : JStr)
    (hd : ∀ c ∈ ds, c.isDigit = true) (hc0 : c0.isDigit = false) :
    (ds ++ c0 :: l).takeWhile Char.isDigit = ds := by
  induction ds with
  | nil => simp [List.takeWhile, hc0]
  | cons d ds ih =>
      simp only [List.cons_append, List.takeWhile_cons, hd d (by simp), if_true]
      rw [ih fun c hc => hd c (by simp [hc])]

theorem daysAgoAt_digits (ds : JStr) (hne : ds ≠ [])
    (hd : ∀ c ∈ ds, c.isDigit = true) :
    daysAgoAt (ds ++ " days ago".toList) = some (digitsVal ds) := by
  unfold daysAgoAt
  rw [show " days ago".toList = ' ' :: "days ago".toList from rfl]
  rw [takeWhile_digits_append ds ' ' _ hd (by decide)]
  rw [if_neg (by simp [hne])]
  have hdrop : (ds ++ ' ' :: "days ago".toList).drop ds.length =
      ' ' :: "days ago".toList := by
    rw [List.drop_left]
  rw [hdrop]
  simp [isWs]
  decide

theorem daysAgoCapture_digits (ds : JStr) (hne : ds ≠ [])
    (hd : ∀ c ∈ ds, c.isDigit = true) :
    daysAgoCapture (ds ++ " days ago".toList) = some (digitsVal ds) := by
  cases ds with
  | nil => exact absurd rfl hne
  | cons d0 ds2 =>
      show daysAgoCapture ((d0 :: ds2) ++ " days ago".toList) = _
      rw [show ((d0 :: ds2) ++ " days ago".toList) =
        d0 :: (ds2 ++ " days ago".toList) from rfl]
      rw [daysAgoCapture]
      rw [show d0 :: (ds2 ++ " days ago".toList) =
        ((d0 :: ds2) ++ " days ago".toList) from rfl]
      rw [daysAgoAt_digits (d0 :: ds2) (by simp) hd]

theorem parseDate_daysAgo (now : ℤ) (oracle : JStr → Option ℤ) (ds : JStr)
    (hne : ds ≠ []) (hd : ∀ c ∈ ds, c.isDigit = true) :
    parseDate now oracle (ds ++ " days ago".toList) =
      now - (digitsVal ds : ℤ) * dayMs := by
  have hTail : ∀ c ∈ " days ago".toList, Char.toLower c ≠ 'u' := by decide
  have hupd : updatedCapture (ds ++ " days ago".toList) = none := by
    apply updatedCapture_of_no_u
    intro c hc
    rcases List.mem_append.1 hc with h | h
    · exact digit_toLower_ne_u c (hd c h)
    · exact hTail c h
  unfold parseDate
  rw [if_neg (by simp [hne]), hupd]
  simp only []
  rw [daysAgoCapture_digits ds hne hd]

theorem parseDate_unrecognized (now : ℤ) (oracle : JStr → Option ℤ) (s : JStr)
    (hne : s ≠ []) (hupd : updatedCapture s = none)
    (hdays : daysAgoCapture s = none) :
    parseDate now oracle s = (oracle s).getD 0 := by
  unfold parseDate
  rw [if_neg (by simp [hne]), hupd]
  simp only []
  rw [hdays]
  cases oracle s <;> rfl

end RS

/-- C8: the date normalizer never throws and, given a fixed `now` and host
parser, is a total function satisfying the rule chain: empty string →
epoch sentinel 0; `Updated <rest>` → the normalization of `<rest>`;
`<N> day(s) ago` → `now` minus `N` days; a host-parseable string → that
instant; anything else → the epoch sentinel. -/
theorem c8_parse_date :
    ∀ (now : ℤ) (oracle : JStr → Option ℤ),
      parseDate now oracle [] = 0 ∧
      (∀ rest : JStr, rest ≠ [] →
        (∀ c, rest.head? = some c → isWs c = false) →
        updatedCapture rest = none →
        parseDate now oracle ("Updated ".toList ++ rest) =
          parseDate now oracle rest) ∧
      (∀ ds : JStr, ds ≠ [] → (∀ c ∈ ds, c.isDigit = true) →
        parseDate now oracle (ds ++ " days ago".toList) =
          now - (digitsVal ds : ℤ) * dayMs) ∧
      (∀ s : JStr, s ≠ [] → updatedCapture s = none → daysAgoCapture s = none →
        ∀ t : ℤ, oracle s = some t → parseDate now oracle s = t) ∧
      (∀ s : JStr, s ≠ [] → updatedCapture s = none → daysAgoCapture s = none →
        oracle s = none → parseDate now oracle s = 0) := by
  intro now oracle
  refine ⟨rfl, parseDate_updated now oracle, parseDate_daysAgo now oracle, ?_, ?_⟩
  · intro s hne hupd hdays t ht
    rw [parseDate_unrecognized now oracle s hne hupd hdays, ht]
    rfl
  · intro s hne hupd hdays ht
    rw [parseDate_unrecognized now oracle s hne hupd hdays, ht]
    rfl

/-- C8 witness: the `N days ago` rule instantiated at `5 days ago`, and the
`Updated <rest>` rule at `Updated 5 days ago`. -/
theorem c8_witness :
    parseDate 0 orcNone ("5".toList ++ " days ago".toList) =
      0 - (digitsVal "5".toList : ℤ) * dayMs ∧
    parseDate 0 orcNone ("Updated ".toList ++ "5 days ago".toList) =
      parseDate 0 orcNone "5 days ago".toList :=
  ⟨(c8_parse_date 0 orcNone).2.2.1 "5".toList (by decide) (by decide),
   (c8_parse_date 0 orcNone).2.1 "5 days ago".toList (by decide) (by decide)
     (by decide)⟩

namespace Dashboard

theorem sum_sq_dev (l : List ℚ) (m : ℚ) :
    (l.map fun r => (r - m) ^ 2).sum =
      (l.map fun r => r ^ 2).sum - 2 * m * l.sum + (l.length : ℚ) * m ^ 2 := by
  induction l with
  | nil => simp
  | cons a l ih =>
      simp only [List.map_cons, List.sum_cons, List.length_cons, ih, Nat.cast_succ]
      ring

theorem codeVariance_eq_moment (l : List ℚ) :
    codeVariance l =
      (l.map fun x => x ^ 2).sum / (l.length : ℚ) -
        (l.sum / (l.length : ℚ)) ^ 2 := by
  unfold codeVariance
  rcases eq_or_ne l [] with rfl | h
  · simp
  · have hn : (l.length : ℚ) ≠ 0 := by
      simpa using fun hc => h (List.length_eq_zero.1 hc)
    show (List.map (fun r => (r - l.sum / (l.length : ℚ)) ^ 2) l).sum / (l.length : ℚ) = _
    rw [sum_sq_dev l (l.sum / (l.length : ℚ))]
    field_simp
    ring

theorem popStdDev_eq_code (l : List ℚ) :
    popStdDev l = Real.sqrt (codeVariance l) := by
  unfold popStdDev
  rw [codeVariance_eq_moment]

theorem popStdDev_nil : popStdDev [] = 0 := by
  unfold popStdDev
  norm_num

theorem jsSlice_eq_specWindow (arr : List TimeBucket) (i : ℕ) (h7 : 7 ≤ i)
    (hi : i < arr.length) :
    jsSlice arr (max 0 (i - 7)) (i + 1) = specWindow arr i := by
  have hfm : ∀ (b a : ℕ), a + b ≤ arr.length →
      (List.range' a b).filterMap (fun j => arr[j]?) = (arr.drop a).take b := by
    intro b
    induction b with
    | zero => intro a _; simp
    | succ b ih =>
        intro a hab
        have ha : a < arr.length := by omega
        rw [List.range'_succ, List.filterMap_cons]
        rw [List.getElem?_eq_getElem ha]
        simp only []
        rw [ih (a + 1) (by omega)]
        rw [List.drop_eq_getElem_cons ha, List.take_succ_cons]
  unfold specWindow jsSlice
  rw [hfm 8 (i - 7) (by omega)]
  rw [Nat.max_eq_right (Nat.zero_le _)]
  rw [List.drop_take]
  congr 1
  omega

end Dashboard

namespace Dashboard

theorem filterMap_eq_map_of_some {β : Type} (f : ℕ → Option β) (g : ℕ → β) :
    ∀ l : List ℕ, (∀ i ∈ l, f i = some (g i)) → l.filterMap f = l.map g := by
  intro l
  induction l with
  | nil => intro _; rfl
  | cons a l ih =>
      intro h
      rw [List.filterMap_cons, h a (by simp), List.map_cons,
        ih fun i hi => h i (by simp [hi])]

theorem volatilityData_entries (arr : List TimeBucket) :
    volatilityData arr =
      (List.range' 7 (arr.length - 7)).map fun i =>
        (arr.getD i ⟨0, 0, 0, 0, 0⟩,
          popStdDev (((specWindow arr i).flatMap expandBucket).map fun r => (r : ℚ))) := by
  unfold volatilityData
  rw [List.reduceOption, List.filterMap_map]
  simp only [Function.comp_def, id_eq]
  by_cases hn : arr.length ≤ 7
  · rw [show arr.length - 7 = 0 by omega]
    simp only [List.range', List.map_nil]
    rw [List.filterMap_eq_nil_iff.2]
    intro i hi
    rw [List.mem_range] at hi
    rw [if_pos (by omega)]
  · have hsplit : List.range arr.length =
        List.range' 0 7 ++ List.range' 7 (arr.length - 7) := by
      rw [List.range_eq_range']
      rw [show List.range' 7 (arr.length - 7) =
        List.range' (0 + 1 * 7) (arr.length - 7) from by norm_num]
      rw [List.range'_append]
      congr 1
      omega
    rw [hsplit, List.filterMap_append]
    rw [List.filterMap_eq_nil_iff.2 (fun i hi => by
      rw [List.mem_range'] at hi
      rcases hi with ⟨k, hk, rfl⟩
      rw [if_pos (by omega)])]
    rw [List.nil_append]
    apply filterMap_eq_map_of_some
    intro i hi
    rw [List.mem_range'] at hi
    rcases hi with ⟨k, hk, rfl⟩
    have h7 : 7 ≤ 7 + 1 * k := by omega
    have hilt : 7 + 1 * k < arr.length := by omega
    rw [if_neg (by omega)]
    rw [jsSlice_eq_specWindow arr _ h7 hilt]
    by_cases hemp :
        (((specWindow arr (7 + 1 * k)).flatMap expandBucket).map fun r => (r : ℚ)).isEmpty
    · rw [if_pos hemp]
      have : ((specWindow arr (7 + 1 * k)).flatMap expandBucket).map
          (fun r => (r : ℚ)) = [] := by simpa [List.isEmpty_iff] using hemp
      rw [this, popStdDev_nil]
    · rw [if_neg hemp, popStdDev_eq_code]

end Dashboard

/-- C7: the volatility series has an entry exactly for each index at or
past the 8th daily bucket (earlier indices are omitted, not zero-filled),
and the entry for index `i` pairs the bucket with the population standard
deviation of the flat list of rating values expanded from the per-rating
counts of buckets `i-7 .. i`. -/
theorem c7_volatility :
    ∀ arr : List Dashboard.TimeBucket,
      (Dashboard.volatilityData arr).length = arr.length - 7 ∧
      (∀ i : ℕ, 7 ≤ i → ∀ hi : i < arr.length,
        (Dashboard.volatilityData arr)[i - 7]? =
          some (arr[i], Dashboard.popStdDev
            (((Dashboard.specWindow arr i).flatMap Dashboard.expandBucket).map
              fun r => (r : ℚ)))) := by
  intro arr
  rw [Dashboard.volatilityData_entries]
  constructor
  · simp
  · intro i h7 hi
    rw [List.getElem?_map]
    rw [List.getElem?_range' 7 1 (show i - 7 < arr.length - 7 by omega)]
    rw [show 7 + 1 * (i - 7) = i by omega]
    simp only [Option.map_some']
    rw [List.getD_eq_getElem arr _ hi]

/-- C7 witness: the series shape and value theorem instantiated at the 8th
bucket of a concrete eight-bucket list. -/
theorem c7_witness :
    (7 ≤ 7 ∧ 7 < arrB8.length) ∧
    (Dashboard.volatilityData arrB8)[0]? =
      some (arrB8[7], Dashboard.popStdDev
        (((Dashboard.specWindow arrB8 7).flatMap Dashboard.expandBucket).map
          fun r => (r : ℚ))) :=
  ⟨⟨le_refl 7, by decide⟩, (c7_volatility arrB8).2 7 (le_refl 7) (by decide)⟩

namespace Reviews

theorem advancedFiltered_subset (now : ℤ) (oracle : JStr → Option ℤ)
    (f : AdvancedFilters) (reviews : List Review) :
    ∀ x ∈ advancedFiltered now oracle f reviews, x ∈ reviews := by
  intro x hx
  unfold advancedFiltered at hx
  simp only [] at hx
  repeat' first
    | (replace hx := (List.mem_filter.1 hx).1)
    | (split at hx)
  all_goals exact hx

theorem legacyFiltered_subset (filterWord : Option JStr) (filterRating : JStr)
    (reviews : List Review) :
    ∀ x ∈ legacyFiltered filterWord filterRating reviews, x ∈ reviews := by
  intro x hx
  unfold legacyFiltered at hx
  simp only [] at hx
  repeat' first
    | (replace hx := (List.mem_filter.1 hx).1)
    | (split at hx)
  all_goals exact hx

theorem composedFiltered_subset (now : ℤ) (oracle : JStr → Option ℤ)
    (st : RState) : ∀ x ∈ composedFiltered now oracle st, x ∈ st.reviews := by
  intro x hx
  unfold composedFiltered at hx
  split at hx
  · exact advancedFiltered_subset now oracle _ _ x hx
  · exact legacyFiltered_subset _ _ _ x hx

end Reviews

namespace Reviews

theorem sortLe_date_desc (now : ℤ) (oracle : JStr → Option ℤ) (a b : Review) :
    sortLe now oracle "date-desc".toList a b = true ↔
      parseDate now oracle b.date ≤ parseDate now oracle a.date := by
  unfold sortLe sortCmp
  rw [if_neg (by decide), if_neg (by decide), if_pos rfl]
  simp [jsLe0, sub_nonpos]

theorem sortLe_date_asc (now : ℤ) (oracle : JStr → Option ℤ) (a b : Review) :
    sortLe now oracle "date-asc".toList a b = true ↔
      parseDate now oracle a.date ≤ parseDate now oracle b.date := by
  unfold sortLe sortCmp
  rw [if_neg (by decide), if_neg (by decide), if_neg (by decide), if_pos rfl]
  simp [jsLe0, sub_nonpos]

theorem sortLe_rating_desc (now : ℤ) (oracle : JStr → Option ℤ) (a b : Review)
    (na nb : ℤ) (ha : parseIntJS a.star_rating = some na)
    (hb : parseIntJS b.star_rating = some nb) :
    sortLe now oracle "rating-desc".toList a b = true ↔ nb ≤ na := by
  unfold sortLe sortCmp
  rw [if_pos rfl]
  simp [jsSub, ha, hb, jsLe0, sub_nonpos]

theorem sortLe_rating_asc (now : ℤ) (oracle : JStr → Option ℤ) (a b : Review)
    (na nb : ℤ) (ha : parseIntJS a.star_rating = some na)
    (hb : parseIntJS b.star_rating = some nb) :
    sortLe now oracle "rating-asc".toList a b = true ↔ na ≤ nb := by
  unfold sortLe sortCmp
  rw [if_neg (by decide), if_pos rfl]
  simp [jsSub, ha, hb, jsLe0, sub_nonpos]

theorem activeList_eq_none {o : Option (List Review)}
    (h : o = none ∨ o = some []) : activeList o = none := by
  rcases h with rfl | rfl <;> simp [activeList]

end Reviews

/-- C1, amended: the override priority holds — an active (non-empty)
collection selection wins over everything (in particular over an active
cluster-group selection), then the calendar-day selection, then the
cluster-group selection — but an active override's list is returned
exactly as stored, WITHOUT re-sorting; only the composed-filter path is
sorted, by the active sort key over the parsed canonical date or the
parsed integer rating (never the raw strings). -/
theorem c1_override_priority_and_sort :
    ∀ (now : ℤ) (oracle : JStr → Option ℤ) (st : Reviews.RState),
      (∀ l, st.collectionReviews = some l → l ≠ [] →
        Reviews.filteredAndSortedReviews now oracle st = l) ∧
      (Reviews.activeList st.collectionReviews = none →
        ∀ l, st.selectedDateReviews = some l → l ≠ [] →
          Reviews.filteredAndSortedReviews now oracle st = l) ∧
      (Reviews.activeList st.collectionReviews = none →
        Reviews.activeList st.selectedDateReviews = none →
        ∀ l, st.groupedReviews = some l → l ≠ [] →
          Reviews.filteredAndSortedReviews now oracle st = l) ∧
      (Reviews.activeList st.collectionReviews = none →
        Reviews.activeList st.selectedDateReviews = none →
        Reviews.activeList st.groupedReviews = none →
        (Reviews.filteredAndSortedReviews now oracle st).Perm
          (Reviews.composedFiltered now oracle st) ∧
        (st.sortBy = "date-desc".toList →
          (Reviews.filteredAndSortedReviews now oracle st).Pairwise fun a b =>
            parseDate now oracle b.date ≤ parseDate now oracle a.date) ∧
        (st.sortBy = "date-asc".toList →
          (Reviews.filteredAndSortedReviews now oracle st).Pairwise fun a b =>
            parseDate now oracle a.date ≤ parseDate now oracle b.date) ∧
        ((∀ r ∈ st.reviews, (parseIntJS r.star_rating).isSome = true) →
          (st.sortBy = "rating-desc".toList →
            (Reviews.filteredAndSortedReviews now oracle st).Pairwise fun a b =>
              jsOr0 (parseIntJS b.star_rating) ≤ jsOr0 (parseIntJS a.star_rating)) ∧
          (st.sortBy = "rating-asc".toList →
            (Reviews.filteredAndSortedReviews now oracle st).Pairwise fun a b =>
              jsOr0 (parseIntJS a.star_rating) ≤ jsOr0 (parseIntJS b.star_rating)))) := by
  intro now oracle st
  refine ⟨?_, ?_, ?_, ?_⟩
  · intro l hcol hne
    unfold Reviews.filteredAndSortedReviews
    rw [hcol, show Reviews.activeList (some l) = some l by
      simp [Reviews.activeList, hne]]
  · intro hc l hdate hne
    unfold Reviews.filteredAndSortedReviews
    rw [hc, hdate, show Reviews.activeList (some l) = some l by
      simp [Reviews.activeList, hne]]
  · intro hc hd l hgrp hne
    unfold Reviews.filteredAndSortedReviews
    rw [hc, hd, hgrp, show Reviews.activeList (some l) = some l by
      simp [Reviews.activeList, hne]]
  · intro hc hd hg
    have hout : Reviews.filteredAndSortedReviews now oracle st =
        insertionSortB (Reviews.sortLe now oracle st.sortBy)
          (Reviews.composedFiltered now oracle st) := by
      unfold Reviews.filteredAndSortedReviews
      rw [hc, hd, hg]
    refine ⟨?_, ?_, ?_, ?_⟩
    · rw [hout]
      exact insertionSortB_perm _ _
    · intro hkey
      rw [hout, hkey]
      have hp := pairwise_insertionSortB (Reviews.sortLe now oracle "date-desc".toList)
        (Reviews.composedFiltered now oracle st)
        (fun a _ b _ => by
          rcases le_total (parseDate now oracle b.date) (parseDate now oracle a.date) with h | h
          · exact Or.inl ((Reviews.sortLe_date_desc now oracle a b).2 h)
          · exact Or.inr ((Reviews.sortLe_date_desc now oracle b a).2 h))
        (fun x _ y _ z _ hxy hyz => (Reviews.sortLe_date_desc now oracle x z).2
          (le_trans ((Reviews.sortLe_date_desc now oracle y z).1 hyz)
            ((Reviews.sortLe_date_desc now oracle x y).1 hxy)))
      exact hp.imp fun h => (Reviews.sortLe_date_desc now oracle _ _).1 h
    · intro hkey
      rw [hout, hkey]
      have hp := pairwise_insertionSortB (Reviews.sortLe now oracle "date-asc".toList)
        (Reviews.composedFiltered now oracle st)
        (fun a _ b _ => by
          rcases le_total (parseDate now oracle a.date) (parseDate now oracle b.date) with h | h
          · exact Or.inl ((Reviews.sortLe_date_asc now oracle a b).2 h)
          · exact Or.inr ((Reviews.sortLe_date_asc now oracle b a).2 h))
        (fun x _ y _ z _ hxy hyz => (Reviews.sortLe_date_asc now oracle x z).2
          (le_trans ((Reviews.sortLe_date_asc now oracle x y).1 hxy)
            ((Reviews.sortLe_date_asc now oracle y z).1 hyz)))
      exact hp.imp fun h => (Reviews.sortLe_date_asc now oracle _ _).1 h
    · intro hparse
      have hpm : ∀ r ∈ Reviews.composedFiltered now oracle st,
          parseIntJS r.star_rating = some (jsOr0 (parseIntJS r.star_rating)) := by
        intro r hr
        have := hparse r (Reviews.composedFiltered_subset now oracle st r hr)
        rcases Option.isSome_iff_exists.1 this with ⟨n, hn⟩
        rw [hn]
        rfl
      constructor
      · intro hkey
        rw [hout, hkey]
        have hp := pairwise_insertionSortB
          (Reviews.sortLe now oracle "rating-desc".toList)
          (Reviews.composedFiltered now oracle st)
          (fun a ha b hb => by
            rcases le_total (jsOr0 (parseIntJS b.star_rating))
              (jsOr0 (parseIntJS a.star_rating)) with h | h
            · exact Or.inl ((Reviews.sortLe_rating_desc now oracle a b _ _
                (hpm a ha) (hpm b hb)).2 h)
            · exact Or.inr ((Reviews.sortLe_rating_desc now oracle b a _ _
                (hpm b hb) (hpm a ha)).2 h))
          (fun x hx y hy z hz hxy hyz => (Reviews.sortLe_rating_desc now oracle x z _ _
            (hpm x hx) (hpm z hz)).2
            (le_trans ((Reviews.sortLe_rating_desc now oracle y z _ _
              (hpm y hy) (hpm z hz)).1 hyz)
              ((Reviews.sortLe_rating_desc now oracle x y _ _
                (hpm x hx) (hpm y hy)).1 hxy)))
        refine hp.imp_of_mem ?_
        intro a b ha hb h
        have ha2 := (mem_insertionSortB _ a _).1 ha
        have hb2 := (mem_insertionSortB _ b _).1 hb
        exact (Reviews.sortLe_rating_desc now oracle a b _ _
          (hpm a ha2) (hpm b hb2)).1 h
      · intro hkey
        rw [hout, hkey]
        have hp := pairwise_insertionSortB
          (Reviews.sortLe now oracle "rating-asc".toList)
          (Reviews.composedFiltered now oracle st)
          (fun a ha b hb => by
            rcases le_total (jsOr0 (parseIntJS a.star_rating))
              (jsOr0 (parseIntJS b.star_rating)) with h | h
            · exact Or.inl ((Reviews.sortLe_rating_asc now oracle a b _ _
                (hpm a ha) (hpm b hb)).2 h)
            · exact Or.inr ((Reviews.sortLe_rating_asc now oracle b a _ _
                (hpm b hb) (hpm a ha)).2 h))
          (fun x hx y hy z hz hxy hyz => (Reviews.sortLe_rating_asc now oracle x z _ _
            (hpm x hx) (hpm z hz)).2
            (le_trans ((Reviews.sortLe_rating_asc now oracle x y _ _
              (hpm x hx) (hpm y hy)).1 hxy)
              ((Reviews.sortLe_rating_asc now oracle y z _ _
                (hpm y hy) (hpm z hz)).1 hyz)))
        refine hp.imp_of_mem ?_
        intro a b ha hb h
        have ha2 := (mem_insertionSortB _ a _).1 ha
        have hb2 := (mem_insertionSortB _ b _).1 hb
        exact (Reviews.sortLe_rating_asc now oracle a b _ _
          (hpm a ha2) (hpm b hb2)).1 h

/-- C1, claim as stated is refuted: with an active collection override in
ascending-rating order and the rating-descending sort key active, the
returned sequence is the stored collection order, not sorted by the active
key. -/
theorem c1_counterexample :
    Reviews.filteredAndSortedReviews 0 orcNone stC1 = [rB2, rA1] ∧
    stC1.sortBy = "rating-desc".toList ∧
    ¬ (Reviews.filteredAndSortedReviews 0 orcNone stC1).Pairwise fun a b =>
        jsOr0 (parseIntJS b.star_rating) ≤ jsOr0 (parseIntJS a.star_rating) := by
  refine ⟨by decide, rfl, ?_⟩
  intro hp
  rw [show Reviews.filteredAndSortedReviews 0 orcNone stC1 = [rB2, rA1] by decide] at hp
  have := List.pairwise_cons.1 hp
  have h2 := this.1 rA1 (by simp)
  revert h2
  decide

/-- C1 witness: the composed-filter path of a concrete override-free state
is a sorted permutation of the composed filter output. -/
theorem c1_witness :
    (Reviews.activeList stSort.collectionReviews = none) ∧
    (Reviews.filteredAndSortedReviews 0 orcNone stSort).Perm
      (Reviews.composedFiltered 0 orcNone stSort) ∧
    (Reviews.filteredAndSortedReviews 0 orcNone stSort).Pairwise fun a b =>
      parseDate 0 orcNone b.date ≤ parseDate 0 orcNone a.date := by
  have h := (c1_override_priority_and_sort 0 orcNone stSort).2.2.2 rfl rfl rfl
  exact ⟨rfl, h.1, h.2.1 rfl⟩

/-- C10: an override whose list is empty (or absent) is not active — an
empty collection selection falls through to the calendar-day selection,
an empty calendar-day selection to the cluster-group selection, and when
all three are empty or null the sorted composed-filter output is
returned; an empty override never replaces the next-priority source. -/
theorem c10_empty_override_falls_through :
    ∀ (now : ℤ) (oracle : JStr → Option ℤ) (st : Reviews.RState),
      (st.collectionReviews = none ∨ st.collectionReviews = some []) →
      ((∀ l, st.selectedDateReviews = some l → l ≠ [] →
        Reviews.filteredAndSortedReviews now oracle st = l) ∧
      ((st.selectedDateReviews = none ∨ st.selectedDateReviews = some []) →
        ((∀ l, st.groupedReviews = some l → l ≠ [] →
          Reviews.filteredAndSortedReviews now oracle st = l) ∧
        ((st.groupedReviews = none ∨ st.groupedReviews = some []) →
          Reviews.filteredAndSortedReviews now oracle st =
            insertionSortB (Reviews.sortLe now oracle st.sortBy)
              (Reviews.composedFiltered now oracle st))))) := by
  intro now oracle st hcol
  have hc := Reviews.activeList_eq_none hcol
  constructor
  · intro l hdate hne
    unfold Reviews.filteredAndSortedReviews
    rw [hc, hdate, show Reviews.activeList (some l) = some l by
      simp [Reviews.activeList, hne]]
  · intro hdate
    have hd := Reviews.activeList_eq_none hdate
    constructor
    · intro l hgrp hne
      unfold Reviews.filteredAndSortedReviews
      rw [hc, hd, hgrp, show Reviews.activeList (some l) = some l by
        simp [Reviews.activeList, hne]]
    · intro hgrp
      have hg := Reviews.activeList_eq_none hgrp
      unfold Reviews.filteredAndSortedReviews
      rw [hc, hd, hg]

/-- C10 witness: a concrete state with an empty collection override and a
populated calendar-day selection returns the calendar-day list. -/
theorem c10_witness :
    (stC10.collectionReviews = some []) ∧
    (stC10.selectedDateReviews = some [rA1]) ∧
    Reviews.filteredAndSortedReviews 0 orcNone stC10 = [rA1] :=
  ⟨rfl, rfl,
    (c10_empty_override_falls_through 0 orcNone stC10 (Or.inr rfl)).1 [rA1] rfl
      (by decide)⟩
